import Mathlib

/-!
# ABySS: the contig writer `DotWriter` and the Bloom-filter de Bruijn graph

A shallow embedding of `PairedDBG/DotWriter.h` and of the graph interface that
`Unittest/BloomDBG/RollingBloomDBGTest.cpp` exercises.

* `std::ostream& out` is a `String` that grows by appending.
* `unsigned` is a `Nat` reduced modulo `2^32` after every arithmetic step.
* `assert` is enabled: a failing assertion ends the run with a `Fault`.  The diagnostics
  sent to `std::cerr` before an assertion are not part of the model.
* The `while` loop of `writeContig` is run with an explicit budget of loop tests.
-/

namespace Abyss

/-! ## Faults -/

/-- Ways in which a run of the writer stops without returning. -/
inductive Fault where
  /-- `assert(c == '+' || c == '-')` in `complementName`. -/
  | badNameSuffix
  /-- `s.back()` on an empty string in `complementName`. -/
  | emptyName
  /-- `assert(it != m_names.end())` in `getName`. -/
  | cannotFindVertex
  /-- `assert(inserted.second)` in `setName`. -/
  | duplicateVertex
  /-- `assert(n == 1)` in `writeContig`. -/
  | palindromeLength
  /-- The vertex iterator is advanced beyond the end of the sequence in `writeGraph`. -/
  | iteratorPastEnd
  /-- The loop budget of the embedding ran out before the walk stopped. -/
  | outOfFuel
  deriving DecidableEq

/-! ## The graph interface consumed by the writer -/

/-- Modelled from the spec: the graph type `SequenceCollectionHash` and the vertex type are
declared in headers that are not part of the sources at hand.  A graph offers the vertex
sequence of `vertices(g)`, the successor list of `adjacent_vertices(u, g)`, the predecessor
list behind `in_degree(u, g)`, the `vertex_complement` and `vertex_removed` properties, the
order `operator<` on vertex descriptors and the k-mer length `vertex_descriptor::length()`. -/
structure Graph (V : Type) where
  /-- The sequence enumerated by `vertices(g)`. -/
  vertices : List V
  /-- The sequence enumerated by `adjacent_vertices(u, g)`. -/
  adj : V → List V
  /-- The sources of the edges entering a vertex. -/
  inAdj : V → List V
  /-- The property `get(vertex_complement, g, u)`. -/
  rc : V → V
  /-- The property `get(vertex_removed, g, u)`. -/
  removed : V → Bool
  /-- The order `operator<` of vertex descriptors. -/
  lt : V → V → Bool
  /-- The value of `vertex_descriptor::length()`. -/
  k : Nat

/-- The modulus of `unsigned` arithmetic. -/
def UINT : Nat := 4294967296

variable {V : Type}

/-- Modelled from the spec: `out_degree(u, g)` is the number of successors of `u`. -/
def out_degree (g : Graph V) (u : V) : Nat := (g.adj u).length

/-- Modelled from the spec: `in_degree(u, g)` is the number of predecessors of `u`. -/
def in_degree (g : Graph V) (u : V) : Nat := (g.inAdj u).length

/-- Modelled from the spec: `contiguous_out` of `Graph/ContigGraphAlgorithms.h`, a header
that is not part of the sources at hand.  A vertex is contiguous-out if its out-degree is 1
and the in-degree of its single successor is 1. -/
def contiguous_out (g : Graph V) (u : V) : Bool :=
  out_degree g u == 1 &&
    match (g.adj u).head? with
    | some v => in_degree g v == 1
    | none => false

/-- Modelled from the spec: `contiguous_in` of `Graph/ContigGraphAlgorithms.h`, the
symmetric notion.  A vertex is contiguous-in if its in-degree is 1 and the out-degree of its
single predecessor is 1.  In a reverse-complement symmetric graph this is `contiguous_out` of
the complement vertex (`contiguous_in_eq`). -/
def contiguous_in (g : Graph V) (u : V) : Bool :=
  in_degree g u == 1 &&
    match (g.inAdj u).head? with
    | some p => out_degree g p == 1
    | none => false

/-- Modelled from the spec: `isPalindrome()` of the vertex type, which is declared outside of
the sources at hand.  A vertex is a palindrome iff it equals its own reverse complement. -/
def isPalindrome [DecidableEq V] (g : Graph V) (u : V) : Bool := decide (u = g.rc u)

/-! ## DotWriter -/

/-- The data members of `DotWriter`: the name registry `m_names` and the counter `m_id`. -/
structure DotWriter (V : Type) where
  /-- A map of terminal k-mers to contig names. -/
  m_names : V → Option String
  /-- The current contig name. -/
  m_id : Nat

/-- The constructor `DotWriter() : m_id(0)`, with an empty registry. -/
def DotWriter.new : DotWriter V := ⟨fun _ => none, 0⟩

/-- The assignment `s.back() = c` on a non-empty string. -/
def setBack (s : String) (c : Char) : String := ⟨s.data.dropLast ++ [c]⟩

/-- Complement the specified name. -/
def complementName (s : String) : Except Fault String :=
  match s.data.getLast? with
  | none => .error .emptyName
  | some c =>
    if c = '+' ∨ c = '-' then .ok (setBack s (if c = '+' then '-' else '+'))
    else .error .badNameSuffix

/-- Return the name of the specified vertex. -/
def getName (w : DotWriter V) (u : V) : Except Fault String :=
  match w.m_names u with
  | none => .error .cannotFindVertex
  | some s => .ok s

/-- The call `m_names.insert(value_type(u, uname))`: the registry afterwards and the flag
telling whether the insertion took place.  An existing entry is kept. -/
def namesInsert [DecidableEq V] (m : V → Option String) (u : V) (uname : String) :
    (V → Option String) × Bool :=
  match m u with
  | some _ => (m, false)
  | none => (Function.update m u (some uname), true)

/-- Set the name of the specified vertex. -/
def setName [DecidableEq V] (w : DotWriter V) (u : V) (uname : String) : Except Fault (DotWriter V) :=
  let inserted := namesInsert w.m_names u uname
  if inserted.2 then .ok { w with m_names := inserted.1 } else .error .duplicateVertex

/-- The loop `while (contiguous_out(g, v)) { n++; v = *adjacent_vertices(v, g).first; }` of
`writeContig`, started with counter `n` at vertex `v`.  Every test of the loop condition
costs one unit of the budget; the result is the final counter and vertex. -/
def walk (g : Graph V) : Nat → Nat → V → Option (Nat × V)
  | 0, _, _ => none
  | fuel + 1, n, v =>
    if contiguous_out g v then
      match (g.adj v).head? with
      | some x => walk g fuel ((n + 1) % UINT) x
      | none => none
    else some (n, v)

/-- The line `"<name>" [l=<l>]` that declares a contig. -/
def declLine (name : String) (l : Nat) : String :=
  "\"" ++ name ++ "\" [l=" ++ toString l ++ "]\n"

/-- The value of `n + vertex_descriptor::length() - 1` in `unsigned` arithmetic. -/
def contigLength (n k : Nat) : Nat := ((n + k) % UINT + UINT - 1) % UINT

/-- Write out the specified contig. -/
def writeContig [DecidableEq V] (g : Graph V) (fuel : Nat) (out : String) (w : DotWriter V) (u : V) :
    Except Fault (String × DotWriter V) :=
  match walk g fuel 1 u with
  | none => .error .outOfFuel
  | some (n, v) =>
    let vrc := g.rc v
    if g.lt vrc u then .ok (out, w)
    else
      let uname := toString w.m_id ++ "+"
      let vname := setBack uname '-'
      let w1 : DotWriter V := { w with m_id := (w.m_id + 1) % UINT }
      match setName w1 u uname with
      | .error e => .error e
      | .ok w2 =>
        let named : Except Fault (DotWriter V) :=
          if u = vrc then (if n = 1 then .ok w2 else .error .palindromeLength)
          else setName w2 vrc vname
        match named with
        | .error e => .error e
        | .ok w3 =>
          let l := contigLength n g.k
          .ok (out ++ declLine uname l ++ declLine vname l, w3)

/-- The quoted name ` "<name>"` written for one neighbour. -/
def quoted (name : String) : String := " \"" ++ name ++ "\""

/-- The loop over the adjacency range in `writeEdges`. -/
def writeNeighbours [DecidableEq V] (g : Graph V) (w : DotWriter V) : List V → String → Except Fault String
  | [], out => .ok out
  | v :: vs, out =>
    match getName w v with
    | .error e => .error e
    | .ok vname =>
      let out1 := out ++ quoted vname
      if isPalindrome g v then
        match complementName vname with
        | .error e => .error e
        | .ok cname => writeNeighbours g w vs (out1 ++ quoted cname)
      else writeNeighbours g w vs out1

/-- Write out the contigs that split at the specified sequence: the overload of `writeEdges`
that takes the source name `uname`. -/
def writeEdgesAs [DecidableEq V] (g : Graph V) (w : DotWriter V) (out : String) (u : V) (uname : String) :
    Except Fault String :=
  if out_degree g u = 0 then .ok out
  else
    match writeNeighbours g w (g.adj u) (out ++ "\"" ++ uname ++ "\" -> \x7b") with
    | .error e => .error e
    | .ok out1 => .ok (out1 ++ " \x7d\n")

/-- Output the edges of the specified vertex: the overload of `writeEdges` without a name. -/
def writeEdges [DecidableEq V] (g : Graph V) (w : DotWriter V) (out : String) (u : V) : Except Fault String :=
  match getName w (g.rc u) with
  | .error e => .error e
  | .ok rcname =>
    match complementName rcname with
    | .error e => .error e
    | .ok uname =>
      match writeEdgesAs g w out u uname with
      | .error e => .error e
      | .ok out1 =>
        if isPalindrome g u then
          match complementName uname with
          | .error e => .error e
          | .ok uname2 => writeEdgesAs g w out1 u uname2
        else .ok out1

/-- The first loop of `writeGraph` (`// Output the vertices.`) over the rest of the vertex
sequence. -/
def writeGraphVertices [DecidableEq V] (g : Graph V) (fuel : Nat) :
    List V → String → DotWriter V → Except Fault (String × DotWriter V)
  | [], out, w => .ok (out, w)
  | u :: rest, out, w =>
    if g.removed u then writeGraphVertices g fuel rest out w
    else
      let written : Except Fault (String × DotWriter V) :=
        if !contiguous_in g u then writeContig g fuel out w u else .ok (out, w)
      match written with
      | .error e => .error e
      | .ok (out1, w1) =>
        if isPalindrome g u then
          match rest with
          | [] => .error .iteratorPastEnd
          | _ :: rest2 => writeGraphVertices g fuel rest2 out1 w1
        else writeGraphVertices g fuel rest out1 w1

/-- The second loop of `writeGraph` (`// Output the edges.`) over the rest of the vertex
sequence. -/
def writeGraphEdges [DecidableEq V] (g : Graph V) (w : DotWriter V) : List V → String → Except Fault String
  | [], out => .ok out
  | u :: rest, out =>
    if g.removed u then writeGraphEdges g w rest out
    else
      let written : Except Fault String :=
        if !contiguous_out g u then writeEdges g w out u else .ok out
      match written with
      | .error e => .error e
      | .ok out1 =>
        if isPalindrome g u then
          match rest with
          | [] => .error .iteratorPastEnd
          | _ :: rest2 => writeGraphEdges g w rest2 out1
        else writeGraphEdges g w rest out1

/-- Write out a dot graph for the specified collection. -/
def writeGraph [DecidableEq V] (g : Graph V) (fuel : Nat) (out : String) (w : DotWriter V) :
    Except Fault (String × DotWriter V) :=
  match writeGraphVertices g fuel g.vertices (out ++ "digraph g \x7b\n") w with
  | .error e => .error e
  | .ok (out1, w1) =>
    match writeGraphEdges g w1 g.vertices out1 with
    | .error e => .error e
    | .ok out2 => .ok (out2 ++ "\x7d\n", w1)

/-- The public entry point `DotWriter::write`: a fresh writer runs `writeGraph`; the text
sent to the stream is returned. -/
def write [DecidableEq V] (g : Graph V) (fuel : Nat) (out : String) : Except Fault String :=
  match writeGraph g fuel out DotWriter.new with
  | .error e => .error e
  | .ok (out1, _) => .ok out1

/-! ## Notions used to state the properties -/

/-- One step of the walk of `writeContig`: `a` is contiguous-out and `b` is its first
successor. -/
def Step (g : Graph V) (a b : V) : Prop :=
  contiguous_out g a = true ∧ (g.adj a).head? = some b

instance (g : Graph V) [DecidableEq V] : DecidableRel (Step g) := fun a b => by
  unfold Step; infer_instance

/-- The registry and counter after `writeContig` has named a contig whose start is `a` and
whose terminal has the reverse complement `b`. -/
def named [DecidableEq V] (w : DotWriter V) (a b : V) : DotWriter V :=
  { m_names :=
      if a = b then Function.update w.m_names a (some (toString w.m_id ++ "+"))
      else Function.update (Function.update w.m_names a (some (toString w.m_id ++ "+")))
        b (some (toString w.m_id ++ "-"))
    m_id := (w.m_id + 1) % UINT }

/-- The two lines that declare the contig with id `i` and length attribute `l`. -/
def declLines (i l : Nat) : String :=
  declLine (toString i ++ "+") l ++ declLine (toString i ++ "-") l

/-- The predecessor lists are the in-edges of the successor lists, and no edge is listed
twice: `in_degree` counts the edges that enter a vertex. -/
structure Graph.WellFormed (g : Graph V) : Prop where
  adj_nodup : ∀ u, (g.adj u).Nodup
  inAdj_nodup : ∀ u, (g.inAdj u).Nodup
  mem_inAdj : ∀ u p, p ∈ g.inAdj u ↔ u ∈ g.adj p

/-- The vertex complement is an involution and the edges are reverse-complement symmetric:
`v` is a successor of `u` iff `rc u` is a successor of `rc v`. -/
structure Graph.RCSymmetric (g : Graph V) : Prop where
  rc_rc : ∀ u, g.rc (g.rc u) = u
  adj_rc : ∀ u v, v ∈ g.adj u ↔ g.rc u ∈ g.adj (g.rc v)

/-- The order `operator<` of the vertices is a strict total order. -/
structure Graph.StrictTotal (g : Graph V) : Prop where
  irrefl : ∀ a, g.lt a a = false
  trans : ∀ a b c, g.lt a b = true → g.lt b c = true → g.lt a c = true
  total : ∀ a b, a ≠ b → g.lt a b = true ∨ g.lt b a = true

/-- Concatenation of the pieces written to the stream, in order. -/
def cat : List String → String
  | [] => ""
  | s :: l => s ++ cat l

/-- The declaration lines of consecutive contigs with ids `i`, `i + 1`, ... and the given
length attributes: `"<id>+" [l=L]` followed by `"<id>-" [l=L]` for each contig. -/
def contigDecls : Nat → List Nat → List String
  | _, [] => []
  | i, l :: ls =>
    declLine (toString i ++ "+") l :: declLine (toString i ++ "-") l :: contigDecls (i + 1) ls

/-- The line `"<uname>" -> { "<name>" ... }` that lists the names after a source name. -/
def edgeLine (uname : String) (names : List String) : String :=
  "\"" ++ uname ++ "\" -> \x7b" ++ cat (names.map quoted) ++ " \x7d\n"

/-- A contig declaration line: `"<name>" [l=<length>]`. -/
def IsDeclLine (d : String) : Prop := ∃ name l, d = declLine name l

/-- An edge line: `"<name>" -> { ... }`. -/
def IsEdgeLine (e : String) : Prop := ∃ uname names, e = edgeLine uname names

/-- A contig name ends in `+` or in `-`. -/
def IsContigName (s : String) : Prop :=
  s.data.getLast? = some '+' ∨ s.data.getLast? = some '-'

instance : DecidablePred IsContigName := fun s => by
  unfold IsContigName; infer_instance

/-- The complemented name in the words of the spec: the last character `+` and `-`
swapped. -/
def flipSign (s : String) : String :=
  if s.data.getLast? = some '+' then ⟨s.data.dropLast ++ ['-']⟩
  else if s.data.getLast? = some '-' then ⟨s.data.dropLast ++ ['+']⟩
  else s

/-- The invariant of the registry: every registered name is a contig name.  The registry is
private to `DotWriter` and only `writeContig` adds to it. -/
def RegistryValid (w : DotWriter V) : Prop :=
  ∀ v s, w.m_names v = some s → IsContigName s

/-- A vertex is named: it is a key of the registry. -/
def Named (w : DotWriter V) (v : V) : Prop := ∃ s, w.m_names v = some s

/-- The names listed after the source name, in the words of the spec: in adjacency order,
the registered name of each out-neighbour, immediately followed by the complemented name iff
the neighbour is a palindrome. -/
def listedNames [DecidableEq V] (g : Graph V) (w : DotWriter V) : List V → List String
  | [] => []
  | v :: vs =>
    (match w.m_names v with
      | none => []
      | some s => if isPalindrome g v then [s, flipSign s] else [s]) ++ listedNames g w vs

/-- The source name that `writeEdges(out, g, u)` computes:
`complementName(getName(get(vertex_complement, g, u)))`. -/
def sourceName (g : Graph V) (w : DotWriter V) (u : V) : Except Fault String :=
  match getName w (g.rc u) with
  | .error e => .error e
  | .ok rcname => complementName rcname

/-- The body of the first loop of `writeGraph` at a vertex that is not removed:
`if (!contiguous_in(g, u)) writeContig(out, g, u);`. -/
def visitVertex [DecidableEq V] (g : Graph V) (fuel : Nat) (out : String) (w : DotWriter V)
    (u : V) : Except Fault (String × DotWriter V) :=
  if !contiguous_in g u then writeContig g fuel out w u else .ok (out, w)

/-- The body of the second loop of `writeGraph` at a vertex that is not removed:
`if (!contiguous_out(g, u)) writeEdges(out, g, u);`. -/
def visitEdges [DecidableEq V] (g : Graph V) (w : DotWriter V) (out : String) (u : V) :
    Except Fault String :=
  if !contiguous_out g u then writeEdges g w out u else .ok out

/-- A vertex sequence in the shape that the skipping relies on: every palindromic vertex of
`base` occurs twice consecutively and every other vertex once. -/
def doubled [DecidableEq V] (g : Graph V) : List V → List V
  | [] => []
  | u :: base => if isPalindrome g u then u :: u :: doubled g base else u :: doubled g base

/-- The vertices of a list processed one after the other by the body of the first loop, each
exactly once and none skipped. -/
def processVertices [DecidableEq V] (g : Graph V) (fuel : Nat) :
    List V → String → DotWriter V → Except Fault (String × DotWriter V)
  | [], out, w => .ok (out, w)
  | u :: rest, out, w =>
    match visitVertex g fuel out w u with
    | .error e => .error e
    | .ok (out1, w1) => processVertices g fuel rest out1 w1

/-- The vertices of a list processed one after the other by the body of the second loop, each
exactly once and none skipped. -/
def processEdges [DecidableEq V] (g : Graph V) (w : DotWriter V) :
    List V → String → Except Fault String
  | [], out => .ok out
  | u :: rest, out =>
    match visitEdges g w out u with
    | .error e => .error e
    | .ok out1 => processEdges g w rest out1

/-- The registry is accounted for by the contigs named from the starts in `starts`: every
key is such a start, or the reverse complement of the terminal of its walk, and the walk was
in the canonical orientation. -/
def KeysFrom (g : Graph V) (fuel : Nat) (starts : List V) (w : DotWriter V) : Prop :=
  ∀ x s, w.m_names x = some s →
    ∃ a ∈ starts, ∃ n t, walk g fuel 1 a = some (n, t) ∧ contiguous_in g a = false ∧
      g.lt (g.rc t) a = false ∧ (x = a ∨ x = g.rc t)

/-! ## Example graphs -/

/-- The complement on `Fin 6` that pairs 0 with 1, 2 with 3 and 4 with 5. -/
def rc6 (v : Fin 6) : Fin 6 := ([1, 0, 3, 2, 5, 4] : List (Fin 6)).getD v.val 0

/-- One contig `0 → 2 → 4` and its reverse complement `5 → 3 → 1`, with `k = 5`. -/
def chainGraph : Graph (Fin 6) where
  vertices := [0, 1, 2, 3, 4, 5]
  adj := fun v => ([[2], [], [4], [1], [], [3]] : List (List (Fin 6))).getD v.val []
  inAdj := fun v => ([[], [3], [0], [5], [2], []] : List (List (Fin 6))).getD v.val []
  rc := rc6
  removed := fun _ => false
  lt := fun a b => decide (a < b)
  k := 5

/-- The complement on `Fin 5` that fixes 0 and pairs 1 with 2 and 3 with 4. -/
def rc5 (v : Fin 5) : Fin 5 := ([0, 2, 1, 4, 3] : List (Fin 5)).getD v.val 0

/-- A palindromic vertex `0` at a branch: edges `1 → 0`, `3 → 0`, `0 → 2`, `0 → 4`, with
`k = 5`.  The vertex sequence lists the palindrome twice. -/
def palGraph : Graph (Fin 5) where
  vertices := [1, 2, 0, 0, 3, 4]
  adj := fun v => ([[2, 4], [0], [], [0], []] : List (List (Fin 5))).getD v.val []
  inAdj := fun v => ([[1, 3], [], [0], [], [0]] : List (List (Fin 5))).getD v.val []
  rc := rc5
  removed := fun _ => false
  lt := fun a b => decide (a < b)
  k := 5

/-- The registry of `palGraph` after the vertex pass, with the next id. -/
def palWriter : DotWriter (Fin 5) where
  m_names := fun v =>
    ([some "1+", some "0+", some "0-", some "2+", some "2-"] : List (Option String)).getD v.val none
  m_id := 3

/-- A contig that is its own reverse complement: the two orientations `0` and `1` of one
k-mer with the edge `0 → 1`, as for the 3-mers `ACG → CGT` of the sequence `ACGT`. -/
def hairpinGraph : Graph (Fin 2) where
  vertices := [0, 1]
  adj := fun v => ([[1], []] : List (List (Fin 2))).getD v.val []
  inAdj := fun v => ([[], [0]] : List (List (Fin 2))).getD v.val []
  rc := fun v => ([1, 0] : List (Fin 2)).getD v.val 0
  removed := fun _ => false
  lt := fun a b => decide (a < b)
  k := 3

/-- The graph `palGraph` with a vertex sequence that lists the palindrome `0` only once. -/
def palOnceGraph : Graph (Fin 5) := { palGraph with vertices := [0, 1, 2, 3, 4] }

/-- A branch `0 → 2`, `0 → 4` (and `3 → 1`, `5 → 1` on the other strand) in which the vertex
`2` and its complement `3` are flagged as removed while the edge `0 → 2` is still listed. -/
def removedEdgeGraph : Graph (Fin 6) where
  vertices := [0, 1, 4, 5]
  adj := fun v => ([[2, 4], [], [], [1], [], [1]] : List (List (Fin 6))).getD v.val []
  inAdj := fun v => ([[], [3, 5], [0], [], [0], []] : List (List (Fin 6))).getD v.val []
  rc := rc6
  removed := fun v => decide (v = 2 ∨ v = 3)
  lt := fun a b => decide (a < b)
  k := 5

/-- Two orientations `0` and `1` of one k-mer without edges, of which only `0` is flagged as
removed. -/
def removedComplementGraph : Graph (Fin 2) where
  vertices := [1]
  adj := fun _ => []
  inAdj := fun _ => []
  rc := fun v => ([1, 0] : List (Fin 2)).getD v.val 0
  removed := fun v => decide (v = 0)
  lt := fun a b => decide (a < b)
  k := 5

/-! ## The Bloom-filter de Bruijn graph -/

/-- The alphabet of a k-mer. -/
inductive Base where
  | A | C | G | T
  deriving DecidableEq

/-- A k-mer: the vertex of the de Bruijn graph. -/
abbrev Kmer := List Base

/-- The four candidate bases, in the order in which they are tried. -/
def bases : List Base := [.A, .C, .G, .T]

/-- Modelled from the spec: the graph adapter `RollingBloomDBG` of `BloomDBG/RollingBloomDBG.h`,
a header that is not part of the sources at hand (only its unit test is).  The adapter holds
no graph; it answers every query from the hash that `RollingHash::getHash()` reports for a
k-mer and from the membership query of the Bloom filter. -/
structure RollingBloomDBG where
  /-- The hash that `RollingHash(kmer, k).getHash()` reports. -/
  hash : Kmer → Nat
  /-- The membership query of the Bloom filter. -/
  bloom : Nat → Bool

namespace RollingBloomDBG

/-- Modelled from the spec: a k-mer is a vertex iff the filter reports its hash present. -/
def vertexExists (g : RollingBloomDBG) (u : Kmer) : Bool := g.bloom (g.hash u)

/-- Modelled from the spec: the candidate successor `u[1..k-1] + b`, the window slid right by
one base. -/
def successor (u : Kmer) (b : Base) : Kmer := u.tail ++ [b]

/-- Modelled from the spec: the candidate predecessor `b + u[0..k-2]`. -/
def predecessor (u : Kmer) (b : Base) : Kmer := b :: u.dropLast

/-- Modelled from the spec: `out_degree(u)` counts the candidate successors, one for each of
the 4 possible next bases, that the filter reports present. -/
def out_degree (g : RollingBloomDBG) (u : Kmer) : Nat :=
  bases.countP (fun b => g.vertexExists (successor u b))

/-- Modelled from the spec: `adjacent_vertices(u)` is the same enumeration, producing the
successor vertices. -/
def adjacent_vertices (g : RollingBloomDBG) (u : Kmer) : List Kmer :=
  (bases.map (successor u)).filter g.vertexExists

/-- Modelled from the spec: `out_edges(u)` is the same enumeration, producing the edges from
`u` to its successors. -/
def out_edges (g : RollingBloomDBG) (u : Kmer) : List (Kmer × Kmer) :=
  (g.adjacent_vertices u).map (fun v => (u, v))

/-- Modelled from the spec: `in_degree(u)` is the symmetric count over the 4 possible
preceding bases. -/
def in_degree (g : RollingBloomDBG) (u : Kmer) : Nat :=
  bases.countP (fun b => g.vertexExists (predecessor u b))

/-- Modelled from the spec: `in_edges(u)` is the symmetric enumeration, producing the edges
from the predecessors to `u`. -/
def in_edges (g : RollingBloomDBG) (u : Kmer) : List (Kmer × Kmer) :=
  ((bases.map (predecessor u)).filter g.vertexExists).map (fun p => (p, u))

/-- The function `source(e, g)`. -/
def source (e : Kmer × Kmer) : Kmer := e.1

/-- The function `target(e, g)`. -/
def target (e : Kmer × Kmer) : Kmer := e.2

end RollingBloomDBG

/-- The complement of a base. -/
def Base.complement : Base → Base
  | .A => .T
  | .C => .G
  | .G => .C
  | .T => .A

/-- The reverse complement of a k-mer. -/
def reverseComplement (u : Kmer) : Kmer := (u.map Base.complement).reverse

/-- The code of a base. -/
def Base.code : Base → Nat
  | .A => 0
  | .C => 1
  | .G => 2
  | .T => 3

/-- The base-4 number spelled by a k-mer. -/
def kmerCode (u : Kmer) : Nat := u.foldl (fun n b => 4 * n + b.code) 0

/-- A strand-canonical hash for the test fixture: the smaller code of a k-mer and its reverse
complement. -/
def canonicalHash (u : Kmer) : Nat := min (kmerCode u) (kmerCode (reverseComplement u))

/-- The k-mers of the test fixture, `k = 5`. -/
def CGACT : Kmer := [.C, .G, .A, .C, .T]
/-- A k-mer of the test fixture. -/
def TGACT : Kmer := [.T, .G, .A, .C, .T]
/-- A k-mer of the test fixture. -/
def GACTC : Kmer := [.G, .A, .C, .T, .C]
/-- A k-mer of the test fixture. -/
def ACTCT : Kmer := [.A, .C, .T, .C, .T]
/-- A k-mer of the test fixture. -/
def ACTCG : Kmer := [.A, .C, .T, .C, .G]

/-- The graph of the fixture `RollingBloomDBGTest`: the filter holds exactly the hashes of
CGACT, TGACT, GACTC, ACTCT and ACTCG. -/
def testGraph : RollingBloomDBG where
  hash := canonicalHash
  bloom := fun h => decide (h ∈ [CGACT, TGACT, GACTC, ACTCT, ACTCG].map canonicalHash)

/-! ## Spaced seeds -/

/-- Modelled from the spec: the process-wide mask of `MaskedKmer`, a string over `0` and `1`
of the length of a k-mer, in which `1` marks a significant position and `0` a wildcard. -/
def maskBits (mask : String) : List Bool := mask.data.map (fun c => decide (c = '1'))

/-- Modelled from the spec: equality of `MaskedKmer` under a mask, a class that is declared
outside of the sources at hand.  Two k-mers are equal iff they agree on every significant
position. -/
def maskedEq (mask : String) (a b : Kmer) : Bool :=
  a.length == b.length &&
    ((maskBits mask).zip (a.zip b)).all (fun p => !p.1 || decide (p.2.1 = p.2.2))

/-- Modelled from the spec: the graph adapter together with the process-wide mask setting of
`MaskedKmer::setMask`, `none` when no mask is set.  The hash of the adapter is the unmasked
hash. -/
structure MaskedDBG where
  /-- The adapter over the Bloom filter. -/
  graph : RollingBloomDBG
  /-- The spaced seed, if one is set. -/
  mask : Option String

namespace MaskedDBG

/-- Modelled from the spec: equality of vertex descriptors under the mask setting. -/
def vertexEq (m : MaskedDBG) (a b : Kmer) : Bool :=
  match m.mask with
  | none => decide (a = b)
  | some mask => maskedEq mask a b

/-- Modelled from the spec: `isPalindrome()`, a k-mer equal to its own reverse complement
under the mask setting. -/
def isPalindrome (m : MaskedDBG) (u : Kmer) : Bool := m.vertexEq u (reverseComplement u)

/-- Modelled from the spec: `out_degree(u)` with a mask setting; the Bloom lookups use the
unmasked hash. -/
def out_degree (m : MaskedDBG) (u : Kmer) : Nat :=
  bases.countP (fun b => m.graph.bloom (m.graph.hash (RollingBloomDBG.successor u b)))

/-- Modelled from the spec: `out_edges(u)` with a mask setting; the Bloom lookups use the
unmasked hash. -/
def out_edges (m : MaskedDBG) (u : Kmer) : List (Kmer × Kmer) :=
  ((bases.map (RollingBloomDBG.successor u)).filter
    (fun v => m.graph.bloom (m.graph.hash v))).map (fun v => (u, v))

end MaskedDBG

/-- The reverse complement of GACTC. -/
def GAGTC : Kmer := [.G, .A, .G, .T, .C]

/-! ## The name registry -/

theorem namesInsert_of_none [DecidableEq V] {m : V → Option String} {u : V} (s : String) (h : m u = none) :
    namesInsert m u s = (Function.update m u (some s), true) := by
  simp [namesInsert, h]

theorem namesInsert_of_some [DecidableEq V] {m : V → Option String} {u : V} (s : String) {t : String}
    (h : m u = some t) : namesInsert m u s = (m, false) := by
  simp [namesInsert, h]

theorem setName_of_none [DecidableEq V] {w : DotWriter V} {u : V} (s : String) (h : w.m_names u = none) :
    setName w u s = .ok { w with m_names := Function.update w.m_names u (some s) } := by
  simp [setName, namesInsert_of_none s h]

theorem setName_of_some [DecidableEq V] {w : DotWriter V} {u : V} (s : String) {t : String}
    (h : w.m_names u = some t) : setName w u s = .error .duplicateVertex := by
  simp [setName, namesInsert_of_some s h]

theorem setName_ok_iff [DecidableEq V] {w w2 : DotWriter V} {u : V} {s : String} :
    setName w u s = .ok w2 ↔
      w.m_names u = none ∧ w2 = { w with m_names := Function.update w.m_names u (some s) } := by
  cases h : w.m_names u with
  | none => simp [setName_of_none s h, eq_comm]
  | some t => simp [setName_of_some s h]

/-- C6 (registry errors).  `setName(u, s)` returns iff `u` is not yet a key; it then maps `u`
to `s`, keeps every other entry and keeps `m_id`.  On a key that is present it stops at the
assertion and the insertion it performed has left the registry as it was.  `getName(u)`
returns iff `u` is a key, and then returns the stored name; on a missing key it stops at the
assertion.  After `setName(u, s)` has returned, `getName(u)` returns `s`. -/
theorem registry_errors [DecidableEq V] (w : DotWriter V) (u : V) (s : String) :
    ((∃ w2, setName w u s = .ok w2) ↔ w.m_names u = none) ∧
    (∀ w2, setName w u s = .ok w2 →
      w2.m_names u = some s ∧ (∀ x, x ≠ u → w2.m_names x = w.m_names x) ∧ w2.m_id = w.m_id) ∧
    (∀ t, w.m_names u = some t →
      setName w u s = .error .duplicateVertex ∧
      (namesInsert w.m_names u s).1 = w.m_names ∧ (namesInsert w.m_names u s).1 u = some t) ∧
    ((∃ t, getName w u = .ok t) ↔ ∃ t, w.m_names u = some t) ∧
    (∀ t, getName w u = .ok t ↔ w.m_names u = some t) ∧
    (w.m_names u = none → getName w u = .error .cannotFindVertex) ∧
    (∀ w2, setName w u s = .ok w2 → getName w2 u = .ok s) := by
  have hget : ∀ (w0 : DotWriter V) (t : String), getName w0 u = .ok t ↔ w0.m_names u = some t := by
    intro w0 t
    cases h : w0.m_names u <;> simp [getName, h]
  refine ⟨?_, ?_, ?_, ?_, hget w, ?_, ?_⟩
  · constructor
    · rintro ⟨w2, h⟩
      exact (setName_ok_iff.mp h).1
    · intro h
      exact ⟨_, setName_of_none s h⟩
  · intro w2 h
    obtain ⟨_, rfl⟩ := setName_ok_iff.mp h
    refine ⟨by simp, ?_, rfl⟩
    intro x hx
    simp [Function.update_noteq hx]
  · intro t h
    refine ⟨setName_of_some s h, ?_, ?_⟩ <;> simp [namesInsert_of_some s h, h]
  · constructor
    · rintro ⟨t, h⟩
      exact ⟨t, (hget w t).mp h⟩
    · rintro ⟨t, h⟩
      exact ⟨t, (hget w t).mpr h⟩
  · intro h
    simp [getName, h]
  · intro w2 h
    obtain ⟨_, rfl⟩ := setName_ok_iff.mp h
    exact (hget _ s).mpr (by simp)

/-! ## The walk of `writeContig` -/

theorem setBack_plus (t : String) : setBack (t ++ "+") '-' = t ++ "-" := by
  apply String.ext
  simp [setBack, String.data_append]

theorem walk_sound (g : Graph V) : ∀ (fuel n : Nat) (u : V) (m : Nat) (v : V),
    n < UINT → walk g fuel n u = some (m, v) →
    ∃ l : List V, l.head? = some u ∧ l.getLast? = some v ∧ l.Chain' (Step g) ∧
      contiguous_out g v = false ∧ l.length ≤ fuel ∧ m = (n + (l.length - 1)) % UINT := by
  intro fuel
  induction fuel with
  | zero => intro n u m v _ h; simp [walk] at h
  | succ fuel ih =>
    intro n u m v hn h
    rw [walk] at h
    by_cases hc : contiguous_out g u = true
    · rw [if_pos hc] at h
      cases hx : (g.adj u).head? with
      | none => rw [hx] at h; simp at h
      | some x =>
        rw [hx] at h
        simp only at h
        obtain ⟨l, h1, h2, h3, h4, h5, h6⟩ := ih ((n + 1) % UINT) x m v (Nat.mod_lt _ (by decide)) h
        cases l with
        | nil => simp at h1
        | cons y l =>
          simp only [List.head?_cons, Option.some.injEq] at h1
          subst h1
          refine ⟨u :: y :: l, rfl, ?_, ?_, h4, ?_, ?_⟩
          · rw [List.getLast?_cons_cons]; exact h2
          · exact List.chain'_cons.mpr ⟨⟨hc, hx⟩, h3⟩
          · simp at h5 ⊢; omega
          · simp at h6 ⊢
            rw [h6]
            congr 1
            omega
    · rw [if_neg hc] at h
      simp only [Option.some.injEq, Prod.mk.injEq] at h
      obtain ⟨rfl, rfl⟩ := h
      refine ⟨[u], rfl, rfl, List.chain'_singleton _, by simpa using hc, by simp, ?_⟩
      simp [Nat.mod_eq_of_lt hn]

theorem walk_complete (g : Graph V) : ∀ (l : List V) (fuel n : Nat) (u v : V),
    l.head? = some u → l.getLast? = some v → l.Chain' (Step g) →
    contiguous_out g v = false → l.length ≤ fuel → n < UINT →
    walk g fuel n u = some ((n + (l.length - 1)) % UINT, v) := by
  intro l
  induction l with
  | nil => intro fuel n u v h; simp at h
  | cons a l ih =>
    intro fuel n u v h1 h2 h3 h4 h5 hn
    simp only [List.head?_cons, Option.some.injEq] at h1
    subst h1
    cases fuel with
    | zero => simp at h5
    | succ fuel =>
      cases l with
      | nil =>
        simp only [List.getLast?_singleton, Option.some.injEq] at h2
        subst h2
        simp [walk, h4, Nat.mod_eq_of_lt hn]
      | cons b l =>
        rw [List.getLast?_cons_cons] at h2
        obtain ⟨⟨hc, hx⟩, h3⟩ := List.chain'_cons.mp h3
        have := ih fuel ((n + 1) % UINT) b v rfl h2 h3 h4 (by simpa using h5) (Nat.mod_lt _ (by decide))
        rw [walk, if_pos hc, hx]
        simp only
        rw [this]
        have e : (n + 1) % UINT + ((b :: l).length - 1) = (n + 1) % UINT + l.length := by simp
        rw [e, Nat.mod_add_mod]
        have e2 : n + ((a :: b :: l).length - 1) = n + 1 + l.length := by
          simp only [List.length_cons]; omega
        rw [e2]

/-! ## The cases of `writeContig` -/

theorem writeContig_skip [DecidableEq V] (g : Graph V) (fuel : Nat) (out : String)
    (w : DotWriter V) {u v : V} {n : Nat} (hw : walk g fuel 1 u = some (n, v))
    (hlt : g.lt (g.rc v) u = true) : writeContig g fuel out w u = .ok (out, w) := by
  simp [writeContig, hw, hlt]

theorem writeContig_emit [DecidableEq V] (g : Graph V) (fuel : Nat) (out : String)
    (w : DotWriter V) {u v : V} {n : Nat} (hw : walk g fuel 1 u = some (n, v))
    (hlt : g.lt (g.rc v) u = false) (hu : w.m_names u = none)
    (hv : u ≠ g.rc v → w.m_names (g.rc v) = none) (hn : u = g.rc v → n = 1) :
    writeContig g fuel out w u =
      .ok (out ++ declLines w.m_id (contigLength n g.k), named w u (g.rc v)) := by
  have h1 : setName { w with m_id := (w.m_id + 1) % UINT } u (toString w.m_id ++ "+") =
      .ok { m_names := Function.update w.m_names u (some (toString w.m_id ++ "+")),
            m_id := (w.m_id + 1) % UINT } := by
    rw [setName_of_none _ (by exact hu)]
  simp only [writeContig, hw, hlt, h1, setBack_plus]
  by_cases he : u = g.rc v
  · simp [← he, hn he, named, declLines, String.append_assoc]
  · have h2 : setName (DotWriter.mk (Function.update w.m_names u (some (toString w.m_id ++ "+")))
            ((w.m_id + 1) % UINT)) (g.rc v) (toString w.m_id ++ "-") =
        .ok { m_names := Function.update (Function.update w.m_names u
                (some (toString w.m_id ++ "+"))) (g.rc v) (some (toString w.m_id ++ "-")),
              m_id := (w.m_id + 1) % UINT } := by
      rw [setName_of_none]
      simp [Function.update_noteq (Ne.symm he), hv he]
    simp [he, h2, named, declLines, String.append_assoc]

theorem writeContig_ok_cases [DecidableEq V] (g : Graph V) (fuel : Nat) (out : String)
    (w : DotWriter V) (u : V) {out2 : String} {w2 : DotWriter V}
    (h : writeContig g fuel out w u = .ok (out2, w2)) :
    ∃ n v, walk g fuel 1 u = some (n, v) ∧
      ((g.lt (g.rc v) u = true ∧ out2 = out ∧ w2 = w) ∨
       (g.lt (g.rc v) u = false ∧ w.m_names u = none ∧
        (u ≠ g.rc v → w.m_names (g.rc v) = none) ∧ (u = g.rc v → n = 1) ∧
        out2 = out ++ declLines w.m_id (contigLength n g.k) ∧ w2 = named w u (g.rc v))) := by
  cases hw : walk g fuel 1 u with
  | none => simp [writeContig, hw] at h
  | some r =>
    obtain ⟨n, v⟩ := r
    refine ⟨n, v, rfl, ?_⟩
    cases hlt : g.lt (g.rc v) u with
    | true =>
      rw [writeContig_skip g fuel out w hw hlt] at h
      simp only [Except.ok.injEq, Prod.mk.injEq] at h
      exact Or.inl ⟨rfl, h.1.symm, h.2.symm⟩
    | false =>
      right
      have hu : w.m_names u = none := by
        cases hu : w.m_names u with
        | none => rfl
        | some t =>
          have : setName { w with m_id := (w.m_id + 1) % UINT } u (toString w.m_id ++ "+") =
              .error .duplicateVertex := setName_of_some _ (by exact hu)
          simp [writeContig, hw, hlt, this] at h
      have h1 : setName { w with m_id := (w.m_id + 1) % UINT } u (toString w.m_id ++ "+") =
          .ok { m_names := Function.update w.m_names u (some (toString w.m_id ++ "+")),
                m_id := (w.m_id + 1) % UINT } := by
        rw [setName_of_none _ (by exact hu)]
      have hv : u ≠ g.rc v → w.m_names (g.rc v) = none := by
        intro he
        cases hv : w.m_names (g.rc v) with
        | none => rfl
        | some t =>
          have : setName (DotWriter.mk (Function.update w.m_names u (some (toString w.m_id ++ "+")))
              ((w.m_id + 1) % UINT)) (g.rc v) (setBack (toString w.m_id ++ "+") '-') =
              .error .duplicateVertex :=
            setName_of_some _ (t := t) (by simp [Function.update_noteq (Ne.symm he), hv])
          simp [writeContig, hw, hlt, h1, he, this] at h
      have hn : u = g.rc v → n = 1 := by
        intro he
        by_contra hne
        have hlt2 : g.lt u u = false := by rw [← he] at hlt; exact hlt
        simp [writeContig, hw, hlt2, h1, ← he, hne] at h
      rw [writeContig_emit g fuel out w hw hlt hu hv hn] at h
      simp only [Except.ok.injEq, Prod.mk.injEq] at h
      exact ⟨rfl, hu, hv, hn, h.1.symm, h.2.symm⟩

/-! ## Reverse-complement symmetry -/

theorem contiguous_out_iff (g : Graph V) (u : V) :
    contiguous_out g u = true ↔ ∃ b, g.adj u = [b] ∧ in_degree g b = 1 := by
  unfold contiguous_out out_degree
  constructor
  · intro h
    simp only [Bool.and_eq_true, beq_iff_eq] at h
    obtain ⟨b, hb⟩ := List.length_eq_one.mp h.1
    refine ⟨b, hb, ?_⟩
    simpa [hb] using h.2
  · rintro ⟨b, hb, h⟩
    simp [hb, h]

theorem contiguous_in_iff (g : Graph V) (u : V) :
    contiguous_in g u = true ↔ ∃ p, g.inAdj u = [p] ∧ out_degree g p = 1 := by
  unfold contiguous_in in_degree
  constructor
  · intro h
    simp only [Bool.and_eq_true, beq_iff_eq] at h
    obtain ⟨b, hb⟩ := List.length_eq_one.mp h.1
    refine ⟨b, hb, ?_⟩
    simpa [hb] using h.2
  · rintro ⟨b, hb, h⟩
    simp [hb, h]

theorem rc_injective {g : Graph V} (hs : g.RCSymmetric) : Function.Injective g.rc := by
  intro a b h
  rw [← hs.rc_rc a, ← hs.rc_rc b, h]

theorem in_degree_rc {g : Graph V} (hw : g.WellFormed) (hs : g.RCSymmetric) (u : V) :
    in_degree g u = out_degree g (g.rc u) := by
  unfold in_degree out_degree
  rw [← List.length_map (g.inAdj u) g.rc]
  apply List.Perm.length_eq
  rw [List.perm_ext_iff_of_nodup ((hw.inAdj_nodup u).map (rc_injective hs)) (hw.adj_nodup _)]
  intro x
  rw [List.mem_map]
  constructor
  · rintro ⟨p, hp, rfl⟩
    exact (hs.adj_rc p u).mp ((hw.mem_inAdj u p).mp hp)
  · intro hx
    refine ⟨g.rc x, ?_, hs.rc_rc x⟩
    rw [hw.mem_inAdj, hs.adj_rc, hs.rc_rc]
    exact hx

theorem out_degree_rc {g : Graph V} (hw : g.WellFormed) (hs : g.RCSymmetric) (u : V) :
    out_degree g u = in_degree g (g.rc u) := by
  rw [in_degree_rc hw hs, hs.rc_rc]

/-- With an involutive complement, symmetric edges and degree symmetry, a walk step from `a`
to `b` gives a walk step from `rc b` to `rc a`. -/
theorem step_rc {g : Graph V} (hs : g.RCSymmetric)
    (hd : ∀ u, in_degree g u = out_degree g (g.rc u)) {a b : V} (h : Step g a b) :
    Step g (g.rc b) (g.rc a) := by
  obtain ⟨hc, hx⟩ := h
  obtain ⟨b2, hb, hin⟩ := (contiguous_out_iff g a).mp hc
  rw [hb] at hx
  simp only [List.head?_cons, Option.some.injEq] at hx
  subst hx
  have hmem : g.rc a ∈ g.adj (g.rc b2) := (hs.adj_rc a b2).mp (by simp [hb])
  have hlen : (g.adj (g.rc b2)).length = 1 := by
    have := hd b2
    unfold out_degree at this
    omega
  obtain ⟨x, hx⟩ := List.length_eq_one.mp hlen
  rw [hx] at hmem
  simp only [List.mem_singleton] at hmem
  subst hmem
  refine ⟨(contiguous_out_iff g _).mpr ⟨_, hx, ?_⟩, by simp [hx]⟩
  rw [hd, hs.rc_rc]
  simp [out_degree, hb]

/-- The symmetric notion of the spec agrees with the complement of `contiguous_out`. -/
theorem contiguous_in_eq {g : Graph V} (hs : g.RCSymmetric)
    (hd : ∀ u, in_degree g u = out_degree g (g.rc u))
    (hm : ∀ u p, p ∈ g.inAdj u ↔ u ∈ g.adj p) (u : V) :
    contiguous_in g u = contiguous_out g (g.rc u) := by
  rw [Bool.eq_iff_iff, contiguous_in_iff, contiguous_out_iff]
  constructor
  · rintro ⟨p, hp, hout⟩
    have hmem : g.rc p ∈ g.adj (g.rc u) := (hs.adj_rc p u).mp ((hm u p).mp (by simp [hp]))
    have hlen : (g.adj (g.rc u)).length = 1 := by
      have := hd u
      unfold out_degree in_degree at this
      rw [hp] at this
      simpa using this.symm
    obtain ⟨x, hx⟩ := List.length_eq_one.mp hlen
    rw [hx] at hmem
    simp only [List.mem_singleton] at hmem
    subst hmem
    refine ⟨_, hx, ?_⟩
    rw [hd, hs.rc_rc]
    exact hout
  · rintro ⟨x, hx, hin⟩
    have hmem : g.rc x ∈ g.inAdj u := by
      rw [hm, hs.adj_rc, hs.rc_rc]
      simp [hx]
    have hlen : (g.inAdj u).length = 1 := by
      have := hd u
      unfold out_degree in_degree at this
      rw [hx] at this
      simpa using this
    obtain ⟨p, hp⟩ := List.length_eq_one.mp hlen
    rw [hp] at hmem
    simp only [List.mem_singleton] at hmem
    subst hmem
    refine ⟨_, hp, ?_⟩
    rw [← hd]
    exact hin

theorem chain_rc {g : Graph V} (hs : g.RCSymmetric)
    (hd : ∀ u, in_degree g u = out_degree g (g.rc u)) {l : List V}
    (h : l.Chain' (Step g)) : ((l.map g.rc).reverse).Chain' (Step g) := by
  rw [List.chain'_reverse, List.chain'_map]
  exact h.imp (fun {a b} hab => step_rc hs hd hab)

/-- The walk along the other strand: if the walk from a contig start `u` stops at `v`, the
walk from `rc v` stops at `rc u` with the same counter. -/
theorem walk_rc {g : Graph V} (hs : g.RCSymmetric)
    (hd : ∀ u, in_degree g u = out_degree g (g.rc u))
    (hm : ∀ u p, p ∈ g.inAdj u ↔ u ∈ g.adj p) {fuel n : Nat} {u v : V}
    (hstart : contiguous_in g u = false) (hwalk : walk g fuel 1 u = some (n, v)) :
    walk g fuel 1 (g.rc v) = some (n, g.rc u) := by
  obtain ⟨l, h1, h2, h3, _, h5, h6⟩ := walk_sound g fuel 1 u n v (by decide) hwalk
  have := walk_complete g ((l.map g.rc).reverse) fuel 1 (g.rc v) (g.rc u)
    (by simp [List.head?_reverse, h2]) (by simp [List.getLast?_reverse, h1]) (chain_rc hs hd h3)
    (by rw [← contiguous_in_eq hs hd hm]; exact hstart) (by simpa using h5) (by decide)
  rw [this, h6]
  simp

theorem chainGraph_wellFormed : chainGraph.WellFormed := ⟨by decide, by decide, by decide⟩

theorem chainGraph_rcSymmetric : chainGraph.RCSymmetric := ⟨by decide, by decide⟩

theorem chainGraph_strictTotal : chainGraph.StrictTotal := ⟨by decide, by decide, by decide⟩

theorem palGraph_wellFormed : palGraph.WellFormed := ⟨by decide, by decide, by decide⟩

theorem palGraph_rcSymmetric : palGraph.RCSymmetric := ⟨by decide, by decide⟩

/-! ## Canonical emission -/

theorem named_ne [DecidableEq V] (w : DotWriter V) {a b : V} (h : w.m_names a = none)
    (hab : a ≠ b) : named w a b ≠ w := by
  intro he
  have : (named w a b).m_names a = w.m_names a := by rw [he]
  rw [h] at this
  simp [named, hab, Function.update_noteq hab] at this

theorem writeContig_not_silent [DecidableEq V] (g : Graph V) (fuel : Nat) (out : String)
    (w : DotWriter V) {u v : V} {n : Nat} (hw : walk g fuel 1 u = some (n, v))
    (hlt : g.lt (g.rc v) u = false) (hne : u ≠ g.rc v) :
    writeContig g fuel out w u ≠ .ok (out, w) := by
  intro h
  obtain ⟨n2, v2, hw2, hc⟩ := writeContig_ok_cases g fuel out w u h
  rw [hw] at hw2
  simp only [Option.some.injEq, Prod.mk.injEq] at hw2
  obtain ⟨rfl, rfl⟩ := hw2
  rcases hc with ⟨h1, _⟩ | ⟨_, hu, _, _, _, h2⟩
  · rw [hlt] at h1
    exact Bool.false_ne_true h1
  · exact named_ne w hu hne h2.symm

/-- C1 (canonical emission).  In a graph with an involutive complement, reverse-complement
symmetric edges and a strict total order on the vertices, let the walk from a contig start
`u` (not contiguous-in) stop at `v` with `u ≠ rc v`.  Then the walk from `rc v` stops at
`rc u`, and exactly one of `writeContig(u)` and `writeContig(rc v)` names the contig.  The
other one, the walk whose terminal has a reverse complement strictly less than its start,
returns with the stream, `m_id` and the registry as they were.  The naming call never returns
silently, and it returns the two declaration lines, the two registry entries and the next
`m_id` when the two keys are not registered yet. -/
theorem canonical_emission [DecidableEq V] (g : Graph V) (hw : g.WellFormed)
    (hs : g.RCSymmetric) (ho : g.StrictTotal) (fuel n : Nat) (u v : V)
    (hstart : contiguous_in g u = false) (hwalk : walk g fuel 1 u = some (n, v))
    (hne : u ≠ g.rc v) (out : String) (w : DotWriter V) :
    walk g fuel 1 (g.rc v) = some (n, g.rc u) ∧
    ((g.lt (g.rc v) u = true ∧ g.lt u (g.rc v) = false ∧
        writeContig g fuel out w u = .ok (out, w) ∧
        writeContig g fuel out w (g.rc v) ≠ .ok (out, w) ∧
        (w.m_names u = none → w.m_names (g.rc v) = none →
          writeContig g fuel out w (g.rc v) =
            .ok (out ++ declLines w.m_id (contigLength n g.k), named w (g.rc v) u))) ∨
     (g.lt u (g.rc v) = true ∧ g.lt (g.rc v) u = false ∧
        writeContig g fuel out w (g.rc v) = .ok (out, w) ∧
        writeContig g fuel out w u ≠ .ok (out, w) ∧
        (w.m_names u = none → w.m_names (g.rc v) = none →
          writeContig g fuel out w u =
            .ok (out ++ declLines w.m_id (contigLength n g.k), named w u (g.rc v))))) := by
  have hwalk2 : walk g fuel 1 (g.rc v) = some (n, g.rc u) :=
    walk_rc hs (in_degree_rc hw hs) hw.mem_inAdj hstart hwalk
  have hasym : ∀ a b, g.lt a b = true → g.lt b a = false := by
    intro a b hab
    cases hba : g.lt b a with
    | false => rfl
    | true =>
      have := ho.trans a b a hab hba
      rw [ho.irrefl] at this
      exact absurd this Bool.false_ne_true
  refine ⟨hwalk2, ?_⟩
  rcases ho.total u (g.rc v) hne with hlt | hlt
  · right
    have hlt2 : g.lt (g.rc (g.rc u)) (g.rc v) = true := by rw [hs.rc_rc]; exact hlt
    refine ⟨hlt, hasym _ _ hlt, writeContig_skip g fuel out w hwalk2 hlt2,
      writeContig_not_silent g fuel out w hwalk (hasym _ _ hlt) hne, ?_⟩
    intro hu hv
    exact writeContig_emit g fuel out w hwalk (hasym _ _ hlt) hu (fun _ => hv)
      (fun h => absurd h hne)
  · left
    have hlt2 : g.lt (g.rc (g.rc u)) (g.rc v) = false := by rw [hs.rc_rc]; exact hasym _ _ hlt
    have hne2 : g.rc v ≠ g.rc (g.rc u) := by rw [hs.rc_rc]; exact Ne.symm hne
    refine ⟨hlt, hasym _ _ hlt, writeContig_skip g fuel out w hwalk hlt,
      writeContig_not_silent g fuel out w hwalk2 hlt2 hne2, ?_⟩
    intro hu hv
    have := writeContig_emit g fuel out w hwalk2 hlt2 hv (fun _ => by rw [hs.rc_rc]; exact hu)
      (fun h => absurd h hne2)
    rw [hs.rc_rc] at this
    exact this

/-- Witness for C1 on `chainGraph`: the walk from `0` stops at `4`; `writeContig(5)` returns
silently and `writeContig(0)` names the contig. -/
theorem canonical_emission_witness :
    (contiguous_in chainGraph 0 = false ∧ walk chainGraph 3 1 0 = some (3, 4) ∧
      (0 : Fin 6) ≠ chainGraph.rc 4) ∧
    walk chainGraph 3 1 5 = some (3, 1) ∧
    writeContig chainGraph 3 "" DotWriter.new 5 = .ok ("", DotWriter.new) ∧
    writeContig chainGraph 3 "" DotWriter.new 0 =
      .ok ("\"0+\" [l=7]\n\"0-\" [l=7]\n", named DotWriter.new 0 5) := by
  have h := canonical_emission chainGraph chainGraph_wellFormed chainGraph_rcSymmetric
    chainGraph_strictTotal 3 3 0 4 (by decide) (by decide) (by decide) "" DotWriter.new
  refine ⟨⟨by decide, by decide, by decide⟩, h.1, ?_⟩
  rcases h.2 with ⟨hlt, _⟩ | ⟨_, _, h1, _, h2⟩
  · exact absurd hlt (by decide)
  · exact ⟨h1, h2 rfl rfl⟩

/-! ## Walk and length -/

theorem chain_dropLast {R : V → V → Prop} : ∀ {l : List V}, l.Chain' R →
    ∀ x ∈ l.dropLast, ∃ y, R x y := by
  intro l
  induction l with
  | nil => intro _ x hx; simp at hx
  | cons a l ih =>
    intro h x hx
    cases l with
    | nil => simp at hx
    | cons b l =>
      rw [List.dropLast_cons₂, List.mem_cons] at hx
      obtain ⟨hab, hrest⟩ := List.chain'_cons.mp h
      rcases hx with rfl | hx
      · exact ⟨b, hab⟩
      · exact ih hrest x hx

theorem contigLength_eq (len k : Nat) (h : 1 ≤ len) :
    contigLength (len % UINT) k = (len + k - 1) % UINT := by
  unfold contigLength UINT
  omega

/-- C2 (walk and length).  If the walk of `writeContig(u)` stops, with counter `n` at vertex
`v`, then there is a path from `u` to `v` in which every vertex is followed by its first
successor, every vertex before `v` is contiguous-out and `v` is not; `n` is the number of
vertices of the path, `v` included, as an `unsigned`; and the length attribute written is
`l = n + k - 1` in `unsigned` arithmetic, which is the exact sum when it fits.  A start that
is not contiguous-out gives the path `[u]` and `l = k`.  Whenever `writeContig(u)` returns, it
wrote nothing or the two lines with this `l`, and it does write them when the orientation is
canonical and the keys are free. -/
theorem walk_and_length [DecidableEq V] (g : Graph V) (fuel n : Nat) (u v : V)
    (hwalk : walk g fuel 1 u = some (n, v)) :
    ∃ path : List V,
      path.head? = some u ∧ path.getLast? = some v ∧ path.Chain' (Step g) ∧
      (∀ x ∈ path.dropLast, contiguous_out g x = true) ∧ contiguous_out g v = false ∧
      n = path.length % UINT ∧
      contigLength n g.k = (path.length + g.k - 1) % UINT ∧
      (path.length + g.k - 1 < UINT → contigLength n g.k = path.length + g.k - 1) ∧
      (contiguous_out g u = false → path = [u] ∧ contigLength n g.k = g.k % UINT) ∧
      (∀ out w out2 w2, writeContig g fuel out w u = .ok (out2, w2) →
        (g.lt (g.rc v) u = true ∧ out2 = out ∧ w2 = w) ∨
        (g.lt (g.rc v) u = false ∧ out2 = out ++ declLines w.m_id (contigLength n g.k))) ∧
      (∀ out w, g.lt (g.rc v) u = false → w.m_names u = none →
        (u ≠ g.rc v → w.m_names (g.rc v) = none) → (u = g.rc v → n = 1) →
        writeContig g fuel out w u =
          .ok (out ++ declLines w.m_id (contigLength n g.k), named w u (g.rc v))) := by
  obtain ⟨l, h1, h2, h3, h4, _, h6⟩ := walk_sound g fuel 1 u n v (by decide) hwalk
  have hlen : 1 ≤ l.length := by
    cases l with
    | nil => simp at h1
    | cons a l => simp
  have hn : n = l.length % UINT := by
    rw [h6]
    congr 1
    omega
  have hL : contigLength n g.k = (l.length + g.k - 1) % UINT := by
    rw [hn]
    exact contigLength_eq _ _ hlen
  refine ⟨l, h1, h2, h3, ?_, h4, hn, hL, ?_, ?_, ?_, ?_⟩
  · intro x hx
    obtain ⟨y, hy⟩ := chain_dropLast h3 x hx
    exact hy.1
  · intro hlt
    rw [hL, Nat.mod_eq_of_lt hlt]
  · intro hu
    have hl : l = [u] := by
      cases l with
      | nil => simp at h1
      | cons a l =>
        simp only [List.head?_cons, Option.some.injEq] at h1
        subst h1
        cases l with
        | nil => rfl
        | cons b l =>
          have := (List.chain'_cons.mp h3).1.1
          rw [hu] at this
          exact absurd this Bool.false_ne_true
    refine ⟨hl, ?_⟩
    rw [hL, hl]
    simp
  · intro out w out2 w2 h
    obtain ⟨n2, v2, hw2, hc⟩ := writeContig_ok_cases g fuel out w u h
    rw [hwalk] at hw2
    simp only [Option.some.injEq, Prod.mk.injEq] at hw2
    obtain ⟨rfl, rfl⟩ := hw2
    rcases hc with ⟨h1, h2, h3⟩ | ⟨h1, _, _, _, h2, _⟩
    · exact Or.inl ⟨h1, h2, h3⟩
    · exact Or.inr ⟨h1, h2⟩
  · intro out w hlt hu hv hp
    exact writeContig_emit g fuel out w hwalk hlt hu hv hp

/-- Witness for C2 on `chainGraph`: the walk from `0` stops at `4` with `n = 3`. -/
theorem walk_and_length_witness :
    walk chainGraph 3 1 0 = some (3, 4) ∧
    ∃ path : List (Fin 6), path.head? = some 0 ∧ path.getLast? = some 4 ∧
      3 = path.length % UINT ∧ contigLength 3 chainGraph.k = (path.length + 5 - 1) % UINT := by
  obtain ⟨path, h1, h2, _, _, _, h3, h4, _⟩ :=
    walk_and_length chainGraph 3 3 0 4 (by decide)
  exact ⟨by decide, path, h1, h2, h3, h4⟩

/-! ## Palindromic start -/

/-- C4 (palindromic start).  In a reverse-complement symmetric graph (the complement is an
involution, the edges are symmetric, `in_degree(u) = out_degree(rc(u))`, and the predecessor
lists are the in-edges), a vertex `u = rc(u)` that is a contig start (not contiguous-in) is
not contiguous-out either, so the walk of `writeContig(u)` stops at once with `n = 1` and
terminal `u`. -/
theorem palindromic_start [DecidableEq V] (g : Graph V) (hs : g.RCSymmetric)
    (hd : ∀ x, in_degree g x = out_degree g (g.rc x))
    (hm : ∀ x p, p ∈ g.inAdj x ↔ x ∈ g.adj p) (u : V) (hpal : u = g.rc u)
    (hstart : contiguous_in g u = false) :
    contiguous_out g u = false ∧ ∀ fuel, walk g (fuel + 1) 1 u = some (1, u) := by
  have hc : contiguous_out g u = false := by
    rw [contiguous_in_eq hs hd hm, ← hpal] at hstart
    exact hstart
  refine ⟨hc, ?_⟩
  intro fuel
  simp [walk, hc]

/-- Witness for C4 on `palGraph`: the palindrome `0` has two predecessors. -/
theorem palindromic_start_witness :
    ((0 : Fin 5) = palGraph.rc 0 ∧ contiguous_in palGraph 0 = false) ∧
    contiguous_out palGraph 0 = false ∧ ∀ fuel, walk palGraph (fuel + 1) 1 0 = some (1, 0) :=
  ⟨⟨by decide, by decide⟩,
    palindromic_start palGraph palGraph_rcSymmetric (by decide) (by decide) 0 (by decide)
      (by decide)⟩

/-! ## Registry entries per contig -/

/-- C5 (registry entries per contig).  When `writeContig(u)` names a contig (the walk stops at
`v`, the orientation is canonical and the call returns), the id is `i = m_id` before the call
and the registry afterwards is the registry before plus the entry `u ↦ "<i>+"` and, when
`u ≠ rc(v)`, the entry `rc(v) ↦ "<i>-"`; when `u = rc(v)` only the entry for `u` is added.
Both keys were free before, and no other key is added, removed or changed. -/
theorem registry_entries [DecidableEq V] (g : Graph V) (fuel n : Nat) (u v : V) (out : String)
    (w : DotWriter V) (out2 : String) (w2 : DotWriter V)
    (hwalk : walk g fuel 1 u = some (n, v)) (hlt : g.lt (g.rc v) u = false)
    (h : writeContig g fuel out w u = .ok (out2, w2)) :
    w.m_names u = none ∧
    (u ≠ g.rc v →
      w.m_names (g.rc v) = none ∧
      w2.m_names = Function.update (Function.update w.m_names u (some (toString w.m_id ++ "+")))
        (g.rc v) (some (toString w.m_id ++ "-")) ∧
      w2.m_names (g.rc v) = some (toString w.m_id ++ "-")) ∧
    (u = g.rc v →
      w2.m_names = Function.update w.m_names u (some (toString w.m_id ++ "+"))) ∧
    w2.m_names u = some (toString w.m_id ++ "+") ∧
    (∀ x, x ≠ u → x ≠ g.rc v → w2.m_names x = w.m_names x) := by
  obtain ⟨n2, v2, hw2, hc⟩ := writeContig_ok_cases g fuel out w u h
  rw [hwalk] at hw2
  simp only [Option.some.injEq, Prod.mk.injEq] at hw2
  obtain ⟨rfl, rfl⟩ := hw2
  rcases hc with ⟨h1, _⟩ | ⟨_, hu, hv, _, _, rfl⟩
  · rw [hlt] at h1
    exact absurd h1 Bool.false_ne_true
  · refine ⟨hu, ?_, ?_, ?_, ?_⟩
    · intro hne
      refine ⟨hv hne, ?_, ?_⟩ <;> simp [named, hne]
    · intro he
      simp [named, ← he]
    · by_cases he : u = g.rc v
      · simp [named, ← he]
      · simp [named, he, Function.update_noteq he]
    · intro x hx hxv
      by_cases he : u = g.rc v
      · simp [named, ← he, Function.update_noteq hx]
      · simp [named, he, Function.update_noteq hx, Function.update_noteq hxv]

/-- Witness for C5 on `chainGraph`: `writeContig(0)` registers `0 ↦ "0+"` and `5 ↦ "0-"`. -/
theorem registry_entries_witness :
    (walk chainGraph 3 1 0 = some (3, 4) ∧ chainGraph.lt (chainGraph.rc 4) 0 = false ∧
      writeContig chainGraph 3 "" DotWriter.new 0 =
        .ok ("\"0+\" [l=7]\n\"0-\" [l=7]\n", named DotWriter.new 0 5)) ∧
    (named (DotWriter.new : DotWriter (Fin 6)) 0 5).m_names 0 = some "0+" ∧
    (named (DotWriter.new : DotWriter (Fin 6)) 0 5).m_names 5 = some "0-" := by
  have h := registry_entries chainGraph 3 3 0 4 "" DotWriter.new
    "\"0+\" [l=7]\n\"0-\" [l=7]\n" (named DotWriter.new 0 5) (by decide) (by decide) rfl
  exact ⟨⟨by decide, by decide, rfl⟩, h.2.2.2.1, (h.2.1 (by decide)).2.2⟩

/-! ## The vertex pass of `writeGraph` -/

theorem cat_append (a b : List String) : cat (a ++ b) = cat a ++ cat b := by
  induction a with
  | nil => simp [cat]
  | cons x a ih => simp [cat, ih, String.append_assoc]

theorem contigDecls_append (i : Nat) (a b : List Nat) :
    contigDecls i (a ++ b) = contigDecls i a ++ contigDecls (i + a.length) b := by
  induction a generalizing i with
  | nil => simp [contigDecls]
  | cons x a ih =>
    have e : i + (a.length + 1) = i + 1 + a.length := by omega
    rw [List.cons_append, contigDecls, contigDecls, ih, List.length_cons, e]
    rfl

/-- What one call of `writeContig` does to the stream and the counter: nothing, or the two
lines of the contig with id `m_id` and the next counter. -/
theorem writeContig_ok_decls [DecidableEq V] (g : Graph V) (fuel : Nat) (out : String)
    (w : DotWriter V) (u : V) {out2 : String} {w2 : DotWriter V}
    (h : writeContig g fuel out w u = .ok (out2, w2)) :
    (out2 = out ∧ w2 = w) ∨
    ∃ l, out2 = out ++ cat (contigDecls w.m_id [l]) ∧ w2.m_id = (w.m_id + 1) % UINT := by
  obtain ⟨n, v, _, hc⟩ := writeContig_ok_cases g fuel out w u h
  rcases hc with ⟨_, h2, h3⟩ | ⟨_, _, _, _, h2, h3⟩
  · exact Or.inl ⟨h2, h3⟩
  · refine Or.inr ⟨contigLength n g.k, ?_, ?_⟩
    · rw [h2]
      simp [contigDecls, cat, declLines, String.append_assoc]
    · rw [h3]
      rfl

theorem writeGraphVertices_spec [DecidableEq V] (g : Graph V) (fuel : Nat) :
    ∀ (k : Nat) (vs : List V) (out : String) (w : DotWriter V) (out2 : String)
      (w2 : DotWriter V), vs.length ≤ k → w.m_id + vs.length < UINT →
      writeGraphVertices g fuel vs out w = .ok (out2, w2) →
      ∃ ls : List Nat, ls.length ≤ vs.length ∧ out2 = out ++ cat (contigDecls w.m_id ls) ∧
        w2.m_id = w.m_id + ls.length := by
  intro k
  induction k with
  | zero =>
    intro vs out w out2 w2 hk _ h
    have : vs = [] := List.length_eq_zero.mp (Nat.le_zero.mp hk)
    subst this
    simp only [writeGraphVertices, Except.ok.injEq, Prod.mk.injEq] at h
    exact ⟨[], by simp, by simp [contigDecls, cat, h.1], by simp [h.2]⟩
  | succ k ih =>
    intro vs out w out2 w2 hk hsz h
    cases vs with
    | nil =>
      simp only [writeGraphVertices, Except.ok.injEq, Prod.mk.injEq] at h
      exact ⟨[], by simp, by simp [contigDecls, cat, h.1], by simp [h.2]⟩
    | cons u rest =>
      simp only [List.length_cons] at hk hsz
      rw [writeGraphVertices] at h
      by_cases hr : g.removed u = true
      · rw [if_pos hr] at h
        obtain ⟨ls, h1, h2, h3⟩ := ih rest out w out2 w2 (by omega) (by omega) h
        exact ⟨ls, by simp; omega, h2, h3⟩
      · rw [if_neg hr] at h
        simp only at h
        cases hwr : (if (!contiguous_in g u) = true then writeContig g fuel out w u
            else Except.ok (out, w)) with
        | error e => rw [hwr] at h; simp at h
        | ok p =>
          obtain ⟨out1, w1⟩ := p
          rw [hwr] at h
          simp only at h
          -- the effect of the optional call of `writeContig`
          have hstep : ∃ l0 : List Nat, l0.length ≤ 1 ∧ out1 = out ++ cat (contigDecls w.m_id l0) ∧
              w1.m_id = w.m_id + l0.length := by
            by_cases hc : (!contiguous_in g u) = true
            · rw [if_pos hc] at hwr
              rcases writeContig_ok_decls g fuel out w u hwr with ⟨h1, h2⟩ | ⟨l, h1, h2⟩
              · exact ⟨[], by simp, by simp [contigDecls, cat, h1], by simp [h2]⟩
              · refine ⟨[l], by simp, h1, ?_⟩
                rw [h2, Nat.mod_eq_of_lt (by omega)]
                simp
            · rw [if_neg hc] at hwr
              simp only [Except.ok.injEq, Prod.mk.injEq] at hwr
              exact ⟨[], by simp, by simp [contigDecls, cat, hwr.1], by simp [hwr.2]⟩
          obtain ⟨l0, hl0, ho1, hw1⟩ := hstep
          -- the rest of the loop
          have hrest : ∃ rest2 : List V, rest2.length ≤ rest.length ∧
              writeGraphVertices g fuel rest2 out1 w1 = .ok (out2, w2) := by
            by_cases hp : isPalindrome g u = true
            · rw [if_pos hp] at h
              cases rest with
              | nil => simp at h
              | cons x rest2 => exact ⟨rest2, by simp, h⟩
            · rw [if_neg hp] at h
              exact ⟨rest, le_refl _, h⟩
          obtain ⟨rest2, hlen, hrun⟩ := hrest
          obtain ⟨ls, h1, h2, h3⟩ := ih rest2 out1 w1 out2 w2 (by omega) (by omega) hrun
          refine ⟨l0 ++ ls, by simp; omega, ?_, ?_⟩
          · rw [h2, ho1, contigDecls_append, cat_append, hw1, String.append_assoc]
          · rw [h3, hw1, List.length_append]
            omega

/-! ## Edge emission -/

theorem complementName_of_contigName {s : String} (h : IsContigName s) :
    complementName s = .ok (flipSign s) := by
  unfold complementName flipSign setBack
  rcases h with h | h
  · rw [h]
    simp
  · rw [h]
    simp

theorem writeNeighbours_named [DecidableEq V] (g : Graph V) (w : DotWriter V)
    (hreg : RegistryValid w) :
    ∀ (vs : List V) (out : String), (∀ v ∈ vs, Named w v) →
      writeNeighbours g w vs out = .ok (out ++ cat ((listedNames g w vs).map quoted)) ∧
      (listedNames g w vs).length = vs.length + vs.countP (isPalindrome g) := by
  intro vs
  induction vs with
  | nil => intro out _; simp [writeNeighbours, listedNames, cat]
  | cons v vs ih =>
    intro out h
    obtain ⟨s, hs⟩ := h v (List.mem_cons_self _ _)
    have hrest : ∀ x ∈ vs, Named w x := fun x hx => h x (List.mem_cons_of_mem _ hx)
    by_cases hpal : isPalindrome g v = true
    · have hc := complementName_of_contigName (hreg v s hs)
      obtain ⟨h1, h2⟩ := ih (out ++ quoted s ++ quoted (flipSign s)) hrest
      simp only [String.append_assoc] at h1
      constructor
      · simp only [writeNeighbours, getName, hs, hpal, hc, if_true, h1, listedNames,
          List.cons_append, List.nil_append, List.map_cons, cat, String.append_assoc]
      · simp only [listedNames, hs, hpal, if_true, List.cons_append, List.nil_append,
          List.length_cons, h2, List.countP_cons_of_pos _ _ hpal]
        omega
    · obtain ⟨h1, h2⟩ := ih (out ++ quoted s) hrest
      simp only [String.append_assoc] at h1
      constructor
      · simp only [writeNeighbours, getName, hs, hpal, h1, listedNames,
          List.cons_append, List.nil_append, List.map_cons, cat, String.append_assoc]
        simp
      · simp only [listedNames, hs, hpal, List.cons_append, List.nil_append,
          List.length_cons, h2, List.countP_cons_of_neg _ _ hpal]
        simp
        omega

/-- C7 (edge emission).  If `out_degree(u) == 0`, `writeEdges(out, g, u, uname)` writes
nothing.  Otherwise, when every out-neighbour of `u` is named (in a registry that holds contig
names, as every registry of a `DotWriter` does), it writes exactly the one line
`"<uname>" -> { ... }` whose body lists, in adjacency order, the registered name of each
out-neighbour, immediately followed by the complemented name iff that neighbour is a
palindrome; the number of names listed is `out_degree(u)` plus the number of palindromic
out-neighbours. -/
theorem edge_emission [DecidableEq V] (g : Graph V) (w : DotWriter V) (hreg : RegistryValid w)
    (out : String) (u : V) (uname : String) :
    (out_degree g u = 0 → writeEdgesAs g w out u uname = .ok out) ∧
    (out_degree g u ≠ 0 → (∀ v ∈ g.adj u, Named w v) →
      writeEdgesAs g w out u uname =
        .ok (out ++ edgeLine uname (listedNames g w (g.adj u))) ∧
      (listedNames g w (g.adj u)).length =
        out_degree g u + (g.adj u).countP (isPalindrome g)) := by
  constructor
  · intro h
    simp [writeEdgesAs, h]
  · intro h hn
    obtain ⟨h1, h2⟩ := writeNeighbours_named g w hreg (g.adj u)
      (out ++ "\"" ++ uname ++ "\" -> \x7b") hn
    simp only [String.append_assoc] at h1
    refine ⟨?_, h2⟩
    simp only [writeEdgesAs, h, if_false, h1, edgeLine, String.append_assoc]

theorem palWriter_valid : RegistryValid palWriter := by
  have key : ∀ v : Fin 5, ∀ t ∈ palWriter.m_names v, IsContigName t := by decide
  intro v s h
  exact key v s h

/-- Witness for C7 on `palGraph`: the edges of `1` lead to the palindrome `0`, which is listed
under both names. -/
theorem edge_emission_witness :
    (RegistryValid palWriter ∧ out_degree palGraph 1 ≠ 0 ∧
      ∀ v ∈ palGraph.adj 1, Named palWriter v) ∧
    writeEdgesAs palGraph palWriter "" 1 "0+" = .ok "\"0+\" -> \x7b \"1+\" \"1-\" \x7d\n" ∧
    out_degree palGraph 2 = 0 ∧ writeEdgesAs palGraph palWriter "" 2 "0-" = .ok "" := by
  have hn : ∀ v ∈ palGraph.adj 1, Named palWriter v := by
    intro v hv
    have : v = 0 := by simpa [palGraph] using hv
    subst this
    exact ⟨"1+", rfl⟩
  have h1 := (edge_emission palGraph palWriter palWriter_valid "" 1 "0+").2 (by decide) hn
  have h2 := (edge_emission palGraph palWriter palWriter_valid "" 2 "0-").1 (by decide)
  exact ⟨⟨palWriter_valid, by decide, hn⟩, h1.1, by decide, h2⟩

/-! ## The edge pass of `writeGraph` -/

theorem writeNeighbours_ok [DecidableEq V] (g : Graph V) (w : DotWriter V) :
    ∀ (vs : List V) (out out2 : String), writeNeighbours g w vs out = .ok out2 →
      ∃ names : List String, out2 = out ++ cat (names.map quoted) := by
  intro vs
  induction vs with
  | nil =>
    intro out out2 h
    simp only [writeNeighbours, Except.ok.injEq] at h
    exact ⟨[], by simp [cat, h]⟩
  | cons v vs ih =>
    intro out out2 h
    rw [writeNeighbours] at h
    cases hg : getName w v with
    | error e => rw [hg] at h; simp at h
    | ok vname =>
      rw [hg] at h
      simp only at h
      by_cases hp : isPalindrome g v = true
      · rw [if_pos hp] at h
        cases hc : complementName vname with
        | error e => rw [hc] at h; simp at h
        | ok cname =>
          rw [hc] at h
          obtain ⟨names, hn⟩ := ih _ _ h
          exact ⟨vname :: cname :: names, by simp [hn, cat, String.append_assoc]⟩
      · rw [if_neg hp] at h
        obtain ⟨names, hn⟩ := ih _ _ h
        exact ⟨vname :: names, by simp [hn, cat, String.append_assoc]⟩

theorem writeEdgesAs_ok [DecidableEq V] (g : Graph V) (w : DotWriter V) (out : String) (u : V)
    (uname : String) {out2 : String} (h : writeEdgesAs g w out u uname = .ok out2) :
    ∃ es : List String, out2 = out ++ cat es ∧ ∀ e ∈ es, IsEdgeLine e := by
  unfold writeEdgesAs at h
  by_cases hd : out_degree g u = 0
  · rw [if_pos hd] at h
    simp only [Except.ok.injEq] at h
    exact ⟨[], by simp [cat, h], by simp⟩
  · rw [if_neg hd] at h
    cases hn : writeNeighbours g w (g.adj u) (out ++ "\"" ++ uname ++ "\" -> \x7b") with
    | error e => rw [hn] at h; simp at h
    | ok out1 =>
      rw [hn] at h
      simp only [Except.ok.injEq] at h
      obtain ⟨names, hnames⟩ := writeNeighbours_ok g w _ _ _ hn
      refine ⟨[edgeLine uname names], ?_, ?_⟩
      · rw [← h, hnames]
        simp [cat, edgeLine, String.append_assoc]
      · intro e he
        simp only [List.mem_singleton] at he
        exact ⟨uname, names, he⟩

theorem writeEdges_ok [DecidableEq V] (g : Graph V) (w : DotWriter V) (out : String) (u : V)
    {out2 : String} (h : writeEdges g w out u = .ok out2) :
    ∃ es : List String, out2 = out ++ cat es ∧ ∀ e ∈ es, IsEdgeLine e := by
  unfold writeEdges at h
  cases hg : getName w (g.rc u) with
  | error e => rw [hg] at h; simp at h
  | ok rcname =>
    rw [hg] at h
    simp only at h
    cases hc : complementName rcname with
    | error e => rw [hc] at h; simp at h
    | ok uname =>
      rw [hc] at h
      simp only at h
      cases h1 : writeEdgesAs g w out u uname with
      | error e => rw [h1] at h; simp at h
      | ok out1 =>
        rw [h1] at h
        simp only at h
        obtain ⟨es1, ho1, he1⟩ := writeEdgesAs_ok g w out u uname h1
        by_cases hp : isPalindrome g u = true
        · rw [if_pos hp] at h
          cases hc2 : complementName uname with
          | error e => rw [hc2] at h; simp at h
          | ok uname2 =>
            rw [hc2] at h
            simp only at h
            obtain ⟨es2, ho2, he2⟩ := writeEdgesAs_ok g w out1 u uname2 h
            refine ⟨es1 ++ es2, ?_, ?_⟩
            · rw [ho2, ho1, cat_append, String.append_assoc]
            · intro e he
              rcases List.mem_append.mp he with he | he
              · exact he1 e he
              · exact he2 e he
        · rw [if_neg hp] at h
          simp only [Except.ok.injEq] at h
          exact ⟨es1, by rw [← h, ho1], he1⟩

theorem writeGraphEdges_ok [DecidableEq V] (g : Graph V) (w : DotWriter V) :
    ∀ (k : Nat) (vs : List V) (out out2 : String), vs.length ≤ k →
      writeGraphEdges g w vs out = .ok out2 →
      ∃ es : List String, out2 = out ++ cat es ∧ ∀ e ∈ es, IsEdgeLine e := by
  intro k
  induction k with
  | zero =>
    intro vs out out2 hk h
    have : vs = [] := List.length_eq_zero.mp (Nat.le_zero.mp hk)
    subst this
    simp only [writeGraphEdges, Except.ok.injEq] at h
    exact ⟨[], by simp [cat, h], by simp⟩
  | succ k ih =>
    intro vs out out2 hk h
    cases vs with
    | nil =>
      simp only [writeGraphEdges, Except.ok.injEq] at h
      exact ⟨[], by simp [cat, h], by simp⟩
    | cons u rest =>
      simp only [List.length_cons] at hk
      rw [writeGraphEdges] at h
      by_cases hr : g.removed u = true
      · rw [if_pos hr] at h
        exact ih rest out out2 (by omega) h
      · rw [if_neg hr] at h
        simp only at h
        cases hwr : (if (!contiguous_out g u) = true then writeEdges g w out u
            else Except.ok out) with
        | error e => rw [hwr] at h; simp at h
        | ok out1 =>
          rw [hwr] at h
          simp only at h
          have hstep : ∃ es : List String, out1 = out ++ cat es ∧ ∀ e ∈ es, IsEdgeLine e := by
            by_cases hc : (!contiguous_out g u) = true
            · rw [if_pos hc] at hwr
              exact writeEdges_ok g w out u hwr
            · rw [if_neg hc] at hwr
              simp only [Except.ok.injEq] at hwr
              exact ⟨[], by simp [cat, hwr], by simp⟩
          obtain ⟨es1, ho1, he1⟩ := hstep
          have hrest : ∃ rest2 : List V, rest2.length ≤ rest.length ∧
              writeGraphEdges g w rest2 out1 = .ok out2 := by
            by_cases hp : isPalindrome g u = true
            · rw [if_pos hp] at h
              cases rest with
              | nil => simp at h
              | cons x rest2 => exact ⟨rest2, by simp, h⟩
            · rw [if_neg hp] at h
              exact ⟨rest, le_refl _, h⟩
          obtain ⟨rest2, hlen, hrun⟩ := hrest
          obtain ⟨es2, ho2, he2⟩ := ih rest2 out1 out2 (by omega) hrun
          refine ⟨es1 ++ es2, ?_, ?_⟩
          · rw [ho2, ho1, cat_append, String.append_assoc]
          · intro e he
            rcases List.mem_append.mp he with he | he
            · exact he1 e he
            · exact he2 e he

/-- Induction over the first loop of `writeGraph`: a relation between the states before and
after that is reflexive, transitive and established by every returning call of `writeContig`
holds across the loop. -/
theorem writeGraphVertices_rel [DecidableEq V] (g : Graph V) (fuel : Nat)
    (P : String → DotWriter V → String → DotWriter V → Prop)
    (hrefl : ∀ out w, P out w out w)
    (htrans : ∀ o1 w1 o2 w2 o3 w3, P o1 w1 o2 w2 → P o2 w2 o3 w3 → P o1 w1 o3 w3)
    (hstep : ∀ out w u out2 w2, writeContig g fuel out w u = .ok (out2, w2) → P out w out2 w2) :
    ∀ (k : Nat) (vs : List V) (out : String) (w : DotWriter V) (out2 : String)
      (w2 : DotWriter V), vs.length ≤ k →
      writeGraphVertices g fuel vs out w = .ok (out2, w2) → P out w out2 w2 := by
  intro k
  induction k with
  | zero =>
    intro vs out w out2 w2 hk h
    have : vs = [] := List.length_eq_zero.mp (Nat.le_zero.mp hk)
    subst this
    simp only [writeGraphVertices, Except.ok.injEq, Prod.mk.injEq] at h
    rw [← h.1, ← h.2]
    exact hrefl out w
  | succ k ih =>
    intro vs out w out2 w2 hk h
    cases vs with
    | nil =>
      simp only [writeGraphVertices, Except.ok.injEq, Prod.mk.injEq] at h
      rw [← h.1, ← h.2]
      exact hrefl out w
    | cons u rest =>
      simp only [List.length_cons] at hk
      rw [writeGraphVertices] at h
      by_cases hr : g.removed u = true
      · rw [if_pos hr] at h
        exact ih rest out w out2 w2 (by omega) h
      · rw [if_neg hr] at h
        simp only at h
        cases hwr : (if (!contiguous_in g u) = true then writeContig g fuel out w u
            else Except.ok (out, w)) with
        | error e => rw [hwr] at h; simp at h
        | ok p =>
          obtain ⟨out1, w1⟩ := p
          rw [hwr] at h
          simp only at h
          have hfirst : P out w out1 w1 := by
            by_cases hc : (!contiguous_in g u) = true
            · rw [if_pos hc] at hwr
              exact hstep out w u out1 w1 hwr
            · rw [if_neg hc] at hwr
              simp only [Except.ok.injEq, Prod.mk.injEq] at hwr
              rw [← hwr.1, ← hwr.2]
              exact hrefl out w
          have hrest : ∃ rest2 : List V, rest2.length ≤ rest.length ∧
              writeGraphVertices g fuel rest2 out1 w1 = .ok (out2, w2) := by
            by_cases hp : isPalindrome g u = true
            · rw [if_pos hp] at h
              cases rest with
              | nil => simp at h
              | cons x rest2 => exact ⟨rest2, by simp, h⟩
            · rw [if_neg hp] at h
              exact ⟨rest, le_refl _, h⟩
          obtain ⟨rest2, hlen, hrun⟩ := hrest
          exact htrans _ _ _ _ _ _ hfirst (ih rest2 out1 w1 out2 w2 (by omega) hrun)

theorem writeGraphVertices_ok [DecidableEq V] (g : Graph V) (fuel : Nat) (vs : List V)
    (out : String) (w : DotWriter V) (out2 : String) (w2 : DotWriter V)
    (h : writeGraphVertices g fuel vs out w = .ok (out2, w2)) :
    ∃ ds : List String, out2 = out ++ cat ds ∧ ∀ d ∈ ds, IsDeclLine d := by
  refine writeGraphVertices_rel g fuel
    (fun o1 _ o2 _ => ∃ ds : List String, o2 = o1 ++ cat ds ∧ ∀ d ∈ ds, IsDeclLine d)
    ?_ ?_ ?_ vs.length vs out w out2 w2 (le_refl _) h
  · intro o _
    exact ⟨[], by simp [cat], by simp⟩
  · rintro o1 _ o2 _ o3 _ ⟨d1, h1, h2⟩ ⟨d2, h3, h4⟩
    refine ⟨d1 ++ d2, by rw [h3, h1, cat_append, String.append_assoc], ?_⟩
    intro d hd
    rcases List.mem_append.mp hd with hd | hd
    · exact h2 d hd
    · exact h4 d hd
  · intro o1 w1 u o2 w3 hw
    rcases writeContig_ok_decls g fuel o1 w1 u hw with ⟨h1, _⟩ | ⟨l, h1, _⟩
    · exact ⟨[], by simp [cat, h1], by simp⟩
    · refine ⟨contigDecls w1.m_id [l], h1, ?_⟩
      intro d hd
      simp only [contigDecls, List.mem_cons, List.mem_singleton, List.not_mem_nil,
        or_false] at hd
      rcases hd with rfl | rfl
      · exact ⟨_, _, rfl⟩
      · exact ⟨_, _, rfl⟩

/-! ## The registry holds contig names -/

theorem isContigName_plus (t : String) : IsContigName (t ++ "+") := by
  left
  simp [String.data_append]

theorem isContigName_minus (t : String) : IsContigName (t ++ "-") := by
  right
  simp [String.data_append]

theorem registryValid_new : RegistryValid (DotWriter.new : DotWriter V) := by
  intro v s h
  simp [DotWriter.new] at h

theorem writeContig_registryValid [DecidableEq V] (g : Graph V) (fuel : Nat) (out : String)
    (w : DotWriter V) (u : V) {out2 : String} {w2 : DotWriter V}
    (h : writeContig g fuel out w u = .ok (out2, w2)) (hreg : RegistryValid w) :
    RegistryValid w2 := by
  obtain ⟨n, v, _, hc⟩ := writeContig_ok_cases g fuel out w u h
  rcases hc with ⟨_, _, h3⟩ | ⟨_, _, _, _, _, h3⟩
  · rw [h3]
    exact hreg
  · rw [h3]
    intro x s hx
    unfold named at hx
    by_cases he : u = g.rc v
    · rw [if_pos he] at hx
      dsimp only at hx
      by_cases hxu : x = u
      · rw [hxu, Function.update_same] at hx
        rw [← Option.some.inj hx]
        exact isContigName_plus _
      · rw [Function.update_noteq hxu] at hx
        exact hreg x s hx
    · rw [if_neg he] at hx
      dsimp only at hx
      by_cases hxv : x = g.rc v
      · rw [hxv, Function.update_same] at hx
        rw [← Option.some.inj hx]
        exact isContigName_minus _
      · rw [Function.update_noteq hxv] at hx
        by_cases hxu : x = u
        · rw [hxu, Function.update_same] at hx
          rw [← Option.some.inj hx]
          exact isContigName_plus _
        · rw [Function.update_noteq hxu] at hx
          exact hreg x s hx

/-- Every registry that the first loop of `writeGraph` builds from a fresh `DotWriter` holds
contig names only. -/
theorem writeGraphVertices_registryValid [DecidableEq V] (g : Graph V) (fuel : Nat)
    (vs : List V) (out : String) (out2 : String) (w2 : DotWriter V)
    (h : writeGraphVertices g fuel vs out DotWriter.new = .ok (out2, w2)) :
    RegistryValid w2 := by
  refine writeGraphVertices_rel g fuel (fun _ w1 _ w3 => RegistryValid w1 → RegistryValid w3)
    ?_ ?_ ?_ vs.length vs out DotWriter.new out2 w2 (le_refl _) h registryValid_new
  · intro _ _ hh
    exact hh
  · intro _ _ _ _ _ _ h1 h2 hh
    exact h2 (h1 hh)
  · intro o1 w1 u o2 w3 hw hh
    exact writeContig_registryValid g fuel o1 w1 u hw hh

theorem writeGraphVertices_removed [DecidableEq V] (g : Graph V) (fuel : Nat) :
    ∀ (vs : List V) (out : String) (w : DotWriter V), (∀ v ∈ vs, g.removed v = true) →
      writeGraphVertices g fuel vs out w = .ok (out, w) := by
  intro vs
  induction vs with
  | nil => intro out w _; rfl
  | cons v vs ih =>
    intro out w h
    rw [writeGraphVertices, if_pos (h v (List.mem_cons_self _ _))]
    exact ih out w (fun x hx => h x (List.mem_cons_of_mem _ hx))

theorem writeGraphEdges_removed [DecidableEq V] (g : Graph V) (w : DotWriter V) :
    ∀ (vs : List V) (out : String), (∀ v ∈ vs, g.removed v = true) →
      writeGraphEdges g w vs out = .ok out := by
  intro vs
  induction vs with
  | nil => intro out _; rfl
  | cons v vs ih =>
    intro out h
    rw [writeGraphEdges, if_pos (h v (List.mem_cons_self _ _))]
    exact ih out (fun x hx => h x (List.mem_cons_of_mem _ hx))

theorem writeGraph_ok [DecidableEq V] (g : Graph V) (fuel : Nat) (out : String)
    (w : DotWriter V) {out2 : String} {w2 : DotWriter V}
    (h : writeGraph g fuel out w = .ok (out2, w2)) :
    ∃ out1 out3, writeGraphVertices g fuel g.vertices (out ++ "digraph g \x7b\n") w =
        .ok (out1, w2) ∧
      writeGraphEdges g w2 g.vertices out1 = .ok out3 ∧ out2 = out3 ++ "\x7d\n" := by
  unfold writeGraph at h
  cases h1 : writeGraphVertices g fuel g.vertices (out ++ "digraph g \x7b\n") w with
  | error e => rw [h1] at h; simp at h
  | ok p =>
    obtain ⟨out1, w1⟩ := p
    rw [h1] at h
    simp only at h
    cases h2 : writeGraphEdges g w1 g.vertices out1 with
    | error e => rw [h2] at h; simp at h
    | ok out3 =>
      rw [h2] at h
      simp only [Except.ok.injEq, Prod.mk.injEq] at h
      obtain ⟨h3, rfl⟩ := h
      exact ⟨out1, out3, rfl, h2, h3.symm⟩

/-! ## Output block structure -/

/-- C8 (output block structure).  Whenever `writeGraph` returns, the text it has sent to the
stream is the line `digraph g {`, then contig declaration lines only, then edge lines only,
then the line `}`, and nothing else: every declaration line precedes every edge line.  For a
graph with no vertices, or with all vertices removed, `writeGraph` returns and the text is
exactly the two lines `digraph g {` and `}`. -/
theorem output_block_structure [DecidableEq V] (g : Graph V) (fuel : Nat) (out : String)
    (w : DotWriter V) :
    (∀ out2 w2, writeGraph g fuel out w = .ok (out2, w2) →
      ∃ decls edges : List String,
        out2 = out ++ "digraph g \x7b\n" ++ cat decls ++ cat edges ++ "\x7d\n" ∧
        (∀ d ∈ decls, IsDeclLine d) ∧ (∀ e ∈ edges, IsEdgeLine e)) ∧
    ((∀ v ∈ g.vertices, g.removed v = true) →
      writeGraph g fuel out w = .ok (out ++ "digraph g \x7b\n" ++ "\x7d\n", w)) := by
  constructor
  · intro out2 w2 h
    obtain ⟨out1, out3, h1, h2, h3⟩ := writeGraph_ok g fuel out w h
    obtain ⟨ds, hd1, hd2⟩ := writeGraphVertices_ok g fuel _ _ _ _ _ h1
    obtain ⟨es, he1, he2⟩ := writeGraphEdges_ok g w2 _ _ _ _ (le_refl _) h2
    exact ⟨ds, es, by rw [h3, he1, hd1], hd2, he2⟩
  · intro h
    simp [writeGraph, writeGraphVertices_removed g fuel _ _ _ h,
      writeGraphEdges_removed g w _ _ h]

/-- The text written for `palGraph`. -/
theorem write_palGraph : write palGraph 1 "" =
    .ok ("digraph g \x7b\n\"0+\" [l=5]\n\"0-\" [l=5]\n\"1+\" [l=5]\n\"1-\" [l=5]\n" ++
      "\"2+\" [l=5]\n\"2-\" [l=5]\n\"0+\" -> \x7b \"1+\" \"1-\" \x7d\n" ++
      "\"1-\" -> \x7b \"0-\" \"2-\" \x7d\n\"1+\" -> \x7b \"0-\" \"2-\" \x7d\n" ++
      "\"2+\" -> \x7b \"1+\" \"1-\" \x7d\n\x7d\n") := by
  rfl

theorem writeGraph_of_write [DecidableEq V] {g : Graph V} {fuel : Nat} {out out2 : String}
    (h : write g fuel out = .ok out2) :
    ∃ w2, writeGraph g fuel out DotWriter.new = .ok (out2, w2) := by
  unfold write at h
  cases hrun : writeGraph g fuel out DotWriter.new with
  | error e => rw [hrun] at h; simp at h
  | ok p =>
    obtain ⟨out3, w3⟩ := p
    rw [hrun] at h
    simp only [Except.ok.injEq] at h
    exact ⟨w3, by rw [h]⟩

/-- Witness for C8 on `palGraph`, and on the same graph with every vertex removed. -/
theorem output_block_structure_witness :
    (∃ w2 decls edges, writeGraph palGraph 1 "" DotWriter.new =
        .ok ("" ++ "digraph g \x7b\n" ++ cat decls ++ cat edges ++ "\x7d\n", w2) ∧
      (∀ d ∈ decls, IsDeclLine d) ∧ (∀ e ∈ edges, IsEdgeLine e)) ∧
    writeGraph { palGraph with removed := fun _ => true } 1 "" DotWriter.new =
      .ok ("" ++ "digraph g \x7b\n" ++ "\x7d\n", DotWriter.new) := by
  obtain ⟨w2, hrun⟩ := writeGraph_of_write write_palGraph
  obtain ⟨decls, edges, h1, h2, h3⟩ :=
    (output_block_structure palGraph 1 "" DotWriter.new).1 _ _ hrun
  refine ⟨⟨w2, decls, edges, ?_, h2, h3⟩, ?_⟩
  · rw [← h1]
    exact hrun
  · exact (output_block_structure { palGraph with removed := fun _ => true } 1 ""
      DotWriter.new).2 (fun _ _ => rfl)

/-! ## Naming -/

theorem contigDecls_getElem (ls : List Nat) : ∀ (i j l : Nat), ls[j]? = some l →
    (contigDecls i ls)[2 * j]? = some (declLine (toString (i + j) ++ "+") l) ∧
    (contigDecls i ls)[2 * j + 1]? = some (declLine (toString (i + j) ++ "-") l) := by
  induction ls with
  | nil => intro i j l h; simp at h
  | cons x ls ih =>
    intro i j l h
    cases j with
    | zero =>
      simp only [List.getElem?_cons_zero, Option.some.injEq] at h
      subst h
      simp [contigDecls]
    | succ j =>
      simp only [List.getElem?_cons_succ] at h
      obtain ⟨h1, h2⟩ := ih (i + 1) j l h
      have e1 : 2 * (j + 1) = 2 * j + 1 + 1 := by omega
      have e2 : i + (j + 1) = i + 1 + j := by omega
      rw [e1, e2]
      simp only [contigDecls, List.getElem?_cons_succ]
      exact ⟨h1, h2⟩

theorem contigDecls_length (ls : List Nat) : ∀ i, (contigDecls i ls).length = 2 * ls.length := by
  induction ls with
  | nil => intro i; rfl
  | cons x ls ih =>
    intro i
    simp only [contigDecls, List.length_cons, ih (i + 1)]
    omega

/-- C3 (naming).  Let `writeGraph` start from a fresh `DotWriter` (`m_id = 0`) on a graph
with fewer than `2^32` entries in its vertex sequence.  If it returns, the text is the header,
then for the contigs in emission order the two lines `"<i>+" [l=L]` and `"<i>-" [l=L]` with
the same `L` and with `i = 0, 1, ...` in decimal, then the edge lines; the line pair at
position `j` carries the id `j`, and `m_id` ends as the number of contigs emitted.  Every call
of `writeContig` that returns leaves `m_id` and the stream as they were (a skipped walk) or
writes the two lines of the id `m_id` and increases `m_id` by one. -/
theorem contig_naming [DecidableEq V] (g : Graph V) (fuel : Nat) (out : String)
    (hsize : g.vertices.length < UINT) :
    (∀ out2 w2, writeGraph g fuel out DotWriter.new = .ok (out2, w2) →
      ∃ (ls : List Nat) (edges : List String),
        out2 = out ++ "digraph g \x7b\n" ++ cat (contigDecls 0 ls) ++ cat edges ++ "\x7d\n" ∧
        (∀ e ∈ edges, IsEdgeLine e) ∧ w2.m_id = ls.length ∧
        (contigDecls 0 ls).length = 2 * ls.length ∧
        ∀ j l, ls[j]? = some l →
          (contigDecls 0 ls)[2 * j]? = some (declLine (toString j ++ "+") l) ∧
          (contigDecls 0 ls)[2 * j + 1]? = some (declLine (toString j ++ "-") l)) ∧
    (∀ out1 (w : DotWriter V) u out2 w2, writeContig g fuel out1 w u = .ok (out2, w2) →
      (out2 = out1 ∧ w2 = w) ∨
      ∃ l, out2 = out1 ++ declLine (toString w.m_id ++ "+") l ++
          declLine (toString w.m_id ++ "-") l ∧
        w2.m_id = (w.m_id + 1) % UINT) := by
  constructor
  · intro out2 w2 h
    obtain ⟨out1, out3, h1, h2, h3⟩ := writeGraph_ok g fuel out DotWriter.new h
    obtain ⟨ls, _, hl2, hl3⟩ := writeGraphVertices_spec g fuel _ _ _ _ _ _ (le_refl _)
      (by simpa [DotWriter.new] using hsize) h1
    obtain ⟨es, he1, he2⟩ := writeGraphEdges_ok g w2 _ _ _ _ (le_refl _) h2
    have hid : (DotWriter.new : DotWriter V).m_id = 0 := rfl
    rw [hid] at hl2 hl3
    refine ⟨ls, es, by rw [h3, he1, hl2], he2, by simpa using hl3, ?_, ?_⟩
    · exact contigDecls_length ls 0
    · intro j l hj
      have := contigDecls_getElem ls 0 j l hj
      simpa using this
  · intro out1 w u out2 w2 h
    rcases writeContig_ok_decls g fuel out1 w u h with h1 | ⟨l, h1, h2⟩
    · exact Or.inl h1
    · refine Or.inr ⟨l, ?_, h2⟩
      rw [h1]
      simp [contigDecls, cat, String.append_assoc]

/-- Witness for C3 on `palGraph`: three contigs with the ids 0, 1 and 2. -/
theorem contig_naming_witness :
    palGraph.vertices.length < UINT ∧
    ∃ (w2 : DotWriter (Fin 5)) (ls : List Nat) (edges : List String),
      writeGraph palGraph 1 "" DotWriter.new =
        .ok ("" ++ "digraph g \x7b\n" ++ cat (contigDecls 0 ls) ++ cat edges ++ "\x7d\n", w2) ∧
      w2.m_id = ls.length := by
  obtain ⟨w2, hrun⟩ := writeGraph_of_write write_palGraph
  obtain ⟨ls, edges, h1, _, h3, _⟩ := (contig_naming palGraph 1 "" (by decide)).1 _ _ hrun
  refine ⟨by decide, w2, ls, edges, ?_, h3⟩
  rw [← h1]
  exact hrun

/-! ## The edges of the Bloom-filter graph -/

theorem successor_injective (u : Kmer) : Function.Injective (RollingBloomDBG.successor u) := by
  intro a b h
  simpa [RollingBloomDBG.successor] using h

theorem predecessor_injective (u : Kmer) :
    Function.Injective (RollingBloomDBG.predecessor u) := by
  intro a b h
  simpa [RollingBloomDBG.predecessor] using h

theorem bases_nodup : bases.Nodup := by decide

theorem mem_bases (b : Base) : b ∈ bases := by
  cases b <;> decide

/-- C9 (out-edges of the Bloom-backed graph).  For every k-mer `u`, `out_edges(u)` and
`adjacent_vertices(u)` enumerate exactly `out_degree(u)` pairwise distinct successors, every
edge leaves `u`, and the targets are exactly the k-mers `u[1..k-1] + b` whose hash the filter
reports present.  In the fixture (`k = 5`, the filter holding the hashes of CGACT, TGACT,
GACTC, ACTCT, ACTCG), `out_degree(GACTC) = 2` and the enumeration yields ACTCG and ACTCT and
then ends. -/
theorem out_edges_bloom :
    (∀ (g : RollingBloomDBG) (u : Kmer),
      (g.out_edges u).length = g.out_degree u ∧
      (g.adjacent_vertices u).length = g.out_degree u ∧
      (g.out_edges u).Nodup ∧ (g.adjacent_vertices u).Nodup ∧
      (g.out_edges u).map RollingBloomDBG.target = g.adjacent_vertices u ∧
      (∀ e ∈ g.out_edges u, RollingBloomDBG.source e = u) ∧
      (∀ v, v ∈ g.adjacent_vertices u ↔
        ∃ b : Base, v = u.tail ++ [b] ∧ g.bloom (g.hash v) = true) ∧
      g.out_degree u ≤ 4) ∧
    testGraph.out_degree GACTC = 2 ∧
    testGraph.adjacent_vertices GACTC = [ACTCG, ACTCT] ∧
    testGraph.out_edges GACTC = [(GACTC, ACTCG), (GACTC, ACTCT)] := by
  refine ⟨?_, by decide, by decide, by decide⟩
  intro g u
  have hlen : (g.adjacent_vertices u).length = g.out_degree u := by
    unfold RollingBloomDBG.adjacent_vertices RollingBloomDBG.out_degree
    rw [← List.countP_eq_length_filter, List.countP_map]
    rfl
  have hnd : (g.adjacent_vertices u).Nodup :=
    (bases_nodup.map (successor_injective u)).filter _
  refine ⟨?_, hlen, ?_, hnd, ?_, ?_, ?_, ?_⟩
  · simp [RollingBloomDBG.out_edges, hlen]
  · exact hnd.map (fun a b h => by simpa using h)
  · simp [RollingBloomDBG.out_edges, RollingBloomDBG.target, Function.comp_def]
  · intro e he
    simp only [RollingBloomDBG.out_edges, List.mem_map] at he
    obtain ⟨v, _, rfl⟩ := he
    rfl
  · intro v
    simp only [RollingBloomDBG.adjacent_vertices, List.mem_filter, List.mem_map,
      RollingBloomDBG.vertexExists, RollingBloomDBG.successor]
    constructor
    · rintro ⟨⟨b, _, rfl⟩, h⟩
      exact ⟨b, rfl, h⟩
    · rintro ⟨b, rfl, h⟩
      exact ⟨⟨b, mem_bases b, rfl⟩, h⟩
  · unfold RollingBloomDBG.out_degree
    exact List.countP_le_length _

/-- C10 (in-edges of the Bloom-backed graph).  For every k-mer `u`, `in_edges(u)` enumerates
exactly `in_degree(u)` pairwise distinct edges, every one of them with target `u`, and the
sources are exactly the k-mers `b + u[0..k-2]` whose hash the filter reports present.  In the
fixture, `in_degree(GACTC) = 2` and the sources are CGACT and TGACT. -/
theorem in_edges_bloom :
    (∀ (g : RollingBloomDBG) (u : Kmer),
      (g.in_edges u).length = g.in_degree u ∧
      (g.in_edges u).Nodup ∧ ((g.in_edges u).map RollingBloomDBG.source).Nodup ∧
      (∀ e ∈ g.in_edges u, RollingBloomDBG.target e = u) ∧
      (∀ v, v ∈ (g.in_edges u).map RollingBloomDBG.source ↔
        ∃ b : Base, v = b :: u.dropLast ∧ g.bloom (g.hash v) = true) ∧
      g.in_degree u ≤ 4) ∧
    testGraph.in_degree GACTC = 2 ∧
    testGraph.in_edges GACTC = [(CGACT, GACTC), (TGACT, GACTC)] := by
  refine ⟨?_, by decide, by decide⟩
  intro g u
  have hsrc : (g.in_edges u).map RollingBloomDBG.source =
      (bases.map (RollingBloomDBG.predecessor u)).filter g.vertexExists := by
    simp [RollingBloomDBG.in_edges, RollingBloomDBG.source, Function.comp_def]
  have hnd : ((bases.map (RollingBloomDBG.predecessor u)).filter g.vertexExists).Nodup :=
    (bases_nodup.map (predecessor_injective u)).filter _
  refine ⟨?_, ?_, ?_, ?_, ?_, ?_⟩
  · unfold RollingBloomDBG.in_edges RollingBloomDBG.in_degree
    rw [List.length_map, ← List.countP_eq_length_filter, List.countP_map]
    rfl
  · exact hnd.map (fun a b h => by simpa using h)
  · rw [hsrc]
    exact hnd
  · intro e he
    simp only [RollingBloomDBG.in_edges, List.mem_map] at he
    obtain ⟨v, _, rfl⟩ := he
    rfl
  · intro v
    rw [hsrc]
    simp only [List.mem_filter, List.mem_map, RollingBloomDBG.vertexExists,
      RollingBloomDBG.predecessor]
    constructor
    · rintro ⟨⟨b, _, rfl⟩, h⟩
      exact ⟨b, rfl, h⟩
    · rintro ⟨b, rfl, h⟩
      exact ⟨⟨b, mem_bases b, rfl⟩, h⟩
  · unfold RollingBloomDBG.in_degree
    exact List.countP_le_length _

/-! ## Complementing a name -/

theorem flipSign_plus (t : String) : flipSign (t ++ "+") = t ++ "-" := by
  apply String.ext
  simp [flipSign, String.data_append]

theorem flipSign_minus (t : String) : flipSign (t ++ "-") = t ++ "+" := by
  apply String.ext
  simp [flipSign, String.data_append]

theorem complementName_plus (t : String) : complementName (t ++ "+") = .ok (t ++ "-") := by
  rw [complementName_of_contigName (isContigName_plus t), flipSign_plus]

theorem complementName_minus (t : String) : complementName (t ++ "-") = .ok (t ++ "+") := by
  rw [complementName_of_contigName (isContigName_minus t), flipSign_minus]

/-- C20 (complementName is an involution on valid names).  For a string `s` whose last
character `c` is `+` or `-`, `complementName(s)` returns a string of the same length that
agrees with `s` on every character but the last, whose last character is `-` if `c` is `+`
and `+` if `c` is `-`, and complementing the result gives `s` back.  For a string whose last
character is neither `+` nor `-` the call stops at the assertion. -/
theorem complementName_involution (s : String) :
    (∀ c, s.data.getLast? = some c → (c = '+' ∨ c = '-') →
      ∃ t, complementName s = .ok t ∧ t.length = s.length ∧
        t.data.dropLast = s.data.dropLast ∧
        t.data.getLast? = some (if c = '+' then '-' else '+') ∧
        complementName t = .ok s) ∧
    (∀ c, s.data.getLast? = some c → c ≠ '+' → c ≠ '-' →
      complementName s = .error .badNameSuffix) := by
  constructor
  · intro c hc hpm
    obtain ⟨l, hl⟩ := List.getLast?_eq_some_iff.mp hc
    obtain ⟨d⟩ := s
    simp only at hl
    subst hl
    rcases hpm with rfl | rfl
    · refine ⟨⟨l ++ ['-']⟩, ?_, ?_, ?_, ?_, ?_⟩
      · simp [complementName, setBack]
      · simp [String.length]
      · simp
      · simp
      · simp [complementName, setBack]
    · refine ⟨⟨l ++ ['+']⟩, ?_, ?_, ?_, ?_, ?_⟩
      · simp [complementName, setBack]
      · simp [String.length]
      · simp
      · simp
      · simp [complementName, setBack]
  · intro c hc h1 h2
    simp [complementName, hc, h1, h2]

/-- Witness for C20: the names `"12+"` and `"12-"` are complements of each other, `"12"` is
rejected. -/
theorem complementName_involution_witness :
    complementName "12+" = .ok "12-" ∧ complementName "12-" = .ok "12+" ∧
    complementName "12" = .error .badNameSuffix := by
  obtain ⟨t, h1, _, _, _, h5⟩ := (complementName_involution "12+").1 '+' rfl (Or.inl rfl)
  have h3 := (complementName_involution "12").2 '2' rfl (by decide) (by decide)
  have ht : t = "12-" := by
    have : complementName "12+" = .ok "12-" := rfl
    rw [this] at h1
    exact (Except.ok.inj h1).symm
  rw [ht] at h5
  exact ⟨rfl, h5, h3⟩

/-! ## The source name of the edges -/

theorem writeEdges_eq [DecidableEq V] (g : Graph V) (w : DotWriter V) (out : String) (u : V) :
    writeEdges g w out u =
      match sourceName g w u with
      | .error e => .error e
      | .ok uname =>
        match writeEdgesAs g w out u uname with
        | .error e => .error e
        | .ok out1 =>
          if isPalindrome g u then
            match complementName uname with
            | .error e => .error e
            | .ok uname2 => writeEdgesAs g w out1 u uname2
          else .ok out1 := by
  unfold writeEdges sourceName
  cases getName w (g.rc u) <;> rfl

/-- C18 (edge source names match contig names).  With an involutive complement, after
`writeContig` has named a contig with id `i`, start `u` and terminal `v`, `u ≠ rc(v)`, the
source name `complementName(getName(rc(v)))` that `writeEdges(out, g, v)` computes is
`"<i>+"`, and the one that `writeEdges(out, g, rc(u))` computes is `"<i>-"`: each call of
`writeEdges` writes its lines under that name (and, at a palindrome, then under the
complemented name). -/
theorem edge_source_names [DecidableEq V] (g : Graph V) (hrc : ∀ x, g.rc (g.rc x) = x)
    (fuel n : Nat) (u v : V) (out : String) (w : DotWriter V) (out2 : String)
    (w2 : DotWriter V) (hwalk : walk g fuel 1 u = some (n, v))
    (hlt : g.lt (g.rc v) u = false) (hne : u ≠ g.rc v)
    (h : writeContig g fuel out w u = .ok (out2, w2)) :
    sourceName g w2 v = .ok (toString w.m_id ++ "+") ∧
    sourceName g w2 (g.rc u) = .ok (toString w.m_id ++ "-") ∧
    (∀ o, writeEdges g w2 o v =
      match writeEdgesAs g w2 o v (toString w.m_id ++ "+") with
      | .error e => .error e
      | .ok o1 =>
        if isPalindrome g v then writeEdgesAs g w2 o1 v (toString w.m_id ++ "-") else .ok o1) ∧
    (∀ o, writeEdges g w2 o (g.rc u) =
      match writeEdgesAs g w2 o (g.rc u) (toString w.m_id ++ "-") with
      | .error e => .error e
      | .ok o1 =>
        if isPalindrome g (g.rc u) then writeEdgesAs g w2 o1 (g.rc u) (toString w.m_id ++ "+")
        else .ok o1) := by
  obtain ⟨n2, v2, hw2, hc⟩ := writeContig_ok_cases g fuel out w u h
  rw [hwalk] at hw2
  simp only [Option.some.injEq, Prod.mk.injEq] at hw2
  obtain ⟨rfl, rfl⟩ := hw2
  rcases hc with ⟨h1, _⟩ | ⟨_, _, _, _, _, rfl⟩
  · rw [hlt] at h1
    exact absurd h1 Bool.false_ne_true
  · have hv : (named w u (g.rc v)).m_names (g.rc v) = some (toString w.m_id ++ "-") := by
      simp [named, hne]
    have hu : (named w u (g.rc v)).m_names u = some (toString w.m_id ++ "+") := by
      simp [named, hne, Function.update_noteq hne]
    have s1 : sourceName g (named w u (g.rc v)) v = .ok (toString w.m_id ++ "+") := by
      simp only [sourceName, getName, hv]
      exact complementName_minus _
    have s2 : sourceName g (named w u (g.rc v)) (g.rc u) = .ok (toString w.m_id ++ "-") := by
      simp only [sourceName, getName, hrc, hu]
      exact complementName_plus _
    refine ⟨s1, s2, ?_, ?_⟩
    · intro o
      rw [writeEdges_eq, s1]
      simp only [complementName_plus]
    · intro o
      rw [writeEdges_eq, s2]
      simp only [complementName_minus]

/-- Witness for C18 on `chainGraph`: after `writeContig(0)` the edges of the terminal `4` are
written under `"0+"` and those of `rc(0) = 1` under `"0-"`. -/
theorem edge_source_names_witness :
    (walk chainGraph 3 1 0 = some (3, 4) ∧ chainGraph.lt (chainGraph.rc 4) 0 = false ∧
      (0 : Fin 6) ≠ chainGraph.rc 4) ∧
    sourceName chainGraph (named DotWriter.new 0 5) 4 = .ok "0+" ∧
    sourceName chainGraph (named DotWriter.new 0 5) 1 = .ok "0-" := by
  have h := edge_source_names chainGraph (by decide) 3 3 0 4 "" DotWriter.new
    "\"0+\" [l=7]\n\"0-\" [l=7]\n" (named DotWriter.new 0 5) (by decide) (by decide)
    (by decide) rfl
  exact ⟨⟨by decide, by decide, by decide⟩, h.1, h.2.1⟩

/-- C19 (edges of a palindromic vertex are written under both names).  For a palindromic
vertex `u` registered as `"<i>+"`, with `out_degree(u) > 0` and all out-neighbours named,
`writeEdges(out, g, u)` writes exactly two edge lines with the same list of names, the first
with source name `"<i>-"` and the second with source name `"<i>+"`.  For a vertex that is not
a palindrome a returning call writes nothing or one edge line. -/
theorem palindrome_edges [DecidableEq V] (g : Graph V) (w : DotWriter V)
    (hreg : RegistryValid w) (out : String) (u : V) :
    (∀ i : Nat, u = g.rc u → w.m_names u = some (toString i ++ "+") → out_degree g u ≠ 0 →
      (∀ v ∈ g.adj u, Named w v) →
      writeEdges g w out u =
        .ok (out ++ edgeLine (toString i ++ "-") (listedNames g w (g.adj u)) ++
          edgeLine (toString i ++ "+") (listedNames g w (g.adj u)))) ∧
    (u ≠ g.rc u → ∀ out2, writeEdges g w out u = .ok out2 →
      out2 = out ∨ ∃ uname names, out2 = out ++ edgeLine uname names) := by
  constructor
  · intro i hpal hu hd hn
    have hp : isPalindrome g u = true := by simpa [isPalindrome] using hpal
    have s1 : sourceName g w u = .ok (toString i ++ "-") := by
      simp only [sourceName, getName, ← hpal, hu]
      exact complementName_plus _
    have e1 : ∀ o name, writeEdgesAs g w o u name =
        .ok (o ++ edgeLine name (listedNames g w (g.adj u))) := by
      intro o name
      have h1 := (writeNeighbours_named g w hreg (g.adj u)
        (o ++ "\"" ++ name ++ "\" -> \x7b") hn).1
      simp only [String.append_assoc] at h1
      simp only [writeEdgesAs, hd, if_false, h1, edgeLine, String.append_assoc]
    rw [writeEdges_eq, s1]
    simp only [e1, hp, if_true, complementName_minus]
  · intro hne out2 h
    have hp : isPalindrome g u = false := by simpa [isPalindrome] using hne
    rw [writeEdges_eq] at h
    cases hs : sourceName g w u with
    | error e => rw [hs] at h; simp at h
    | ok uname =>
      rw [hs] at h
      simp only at h
      cases h1 : writeEdgesAs g w out u uname with
      | error e => rw [h1] at h; simp at h
      | ok out1 =>
        rw [h1] at h
        simp only [hp, Bool.false_eq_true, if_false, Except.ok.injEq] at h
        subst h
        unfold writeEdgesAs at h1
        by_cases hd : out_degree g u = 0
        · rw [if_pos hd] at h1
          exact Or.inl (Except.ok.inj h1).symm
        · rw [if_neg hd] at h1
          cases hnb : writeNeighbours g w (g.adj u) (out ++ "\"" ++ uname ++ "\" -> \x7b") with
          | error e => rw [hnb] at h1; simp at h1
          | ok o2 =>
            rw [hnb] at h1
            obtain ⟨names, hnames⟩ := writeNeighbours_ok g w _ _ _ hnb
            refine Or.inr ⟨uname, names, ?_⟩
            rw [← Except.ok.inj h1, hnames]
            simp [edgeLine, String.append_assoc]

/-- Witness for C19 on `palGraph`: the palindrome `0`, registered as `"1+"`, writes its two
out-neighbours under `"1-"` and then under `"1+"`. -/
theorem palindrome_edges_witness :
    ((0 : Fin 5) = palGraph.rc 0 ∧ palWriter.m_names 0 = some "1+" ∧
      out_degree palGraph 0 ≠ 0) ∧
    writeEdges palGraph palWriter "" 0 =
      .ok ("\"1-\" -> \x7b \"0-\" \"2-\" \x7d\n\"1+\" -> \x7b \"0-\" \"2-\" \x7d\n") := by
  have hn : ∀ v ∈ palGraph.adj 0, Named palWriter v := by
    intro v hv
    have : v = 2 ∨ v = 4 := by simpa [palGraph] using hv
    rcases this with rfl | rfl
    · exact ⟨"0-", rfl⟩
    · exact ⟨"2-", rfl⟩
  have h := (palindrome_edges palGraph palWriter palWriter_valid "" 0).1 1 (by decide) rfl
    (by decide) hn
  exact ⟨⟨by decide, rfl, by decide⟩, h⟩

/-! ## Skipping the second occurrence of a palindrome -/

theorem writeGraphVertices_removed_cons [DecidableEq V] (g : Graph V) (fuel : Nat) (u : V)
    (rest : List V) (out : String) (w : DotWriter V) (hr : g.removed u = true) :
    writeGraphVertices g fuel (u :: rest) out w = writeGraphVertices g fuel rest out w := by
  rw [writeGraphVertices, if_pos hr]

theorem writeGraphVertices_plain_cons [DecidableEq V] (g : Graph V) (fuel : Nat) (u : V)
    (rest : List V) (out : String) (w : DotWriter V) (hr : g.removed u = false)
    (hp : isPalindrome g u = false) :
    writeGraphVertices g fuel (u :: rest) out w =
      match visitVertex g fuel out w u with
      | .error e => .error e
      | .ok (out1, w1) => writeGraphVertices g fuel rest out1 w1 := by
  rw [writeGraphVertices]
  simp only [hr, hp, Bool.false_eq_true, if_false, visitVertex]

theorem writeGraphVertices_skip_cons [DecidableEq V] (g : Graph V) (fuel : Nat) (u x : V)
    (rest : List V) (out : String) (w : DotWriter V) (hr : g.removed u = false)
    (hp : isPalindrome g u = true) :
    writeGraphVertices g fuel (u :: x :: rest) out w =
      match visitVertex g fuel out w u with
      | .error e => .error e
      | .ok (out1, w1) => writeGraphVertices g fuel rest out1 w1 := by
  rw [writeGraphVertices]
  simp only [hr, hp, Bool.false_eq_true, if_false, if_true, visitVertex]

theorem writeGraphEdges_removed_cons [DecidableEq V] (g : Graph V) (w : DotWriter V) (u : V)
    (rest : List V) (out : String) (hr : g.removed u = true) :
    writeGraphEdges g w (u :: rest) out = writeGraphEdges g w rest out := by
  rw [writeGraphEdges, if_pos hr]

theorem writeGraphEdges_plain_cons [DecidableEq V] (g : Graph V) (w : DotWriter V) (u : V)
    (rest : List V) (out : String) (hr : g.removed u = false)
    (hp : isPalindrome g u = false) :
    writeGraphEdges g w (u :: rest) out =
      match visitEdges g w out u with
      | .error e => .error e
      | .ok out1 => writeGraphEdges g w rest out1 := by
  rw [writeGraphEdges]
  simp only [hr, hp, Bool.false_eq_true, if_false, visitEdges]

theorem writeGraphEdges_skip_cons [DecidableEq V] (g : Graph V) (w : DotWriter V) (u x : V)
    (rest : List V) (out : String) (hr : g.removed u = false)
    (hp : isPalindrome g u = true) :
    writeGraphEdges g w (u :: x :: rest) out =
      match visitEdges g w out u with
      | .error e => .error e
      | .ok out1 => writeGraphEdges g w rest out1 := by
  rw [writeGraphEdges]
  simp only [hr, hp, Bool.false_eq_true, if_false, if_true, visitEdges]

theorem writeGraphVertices_doubled [DecidableEq V] (g : Graph V) (fuel : Nat) :
    ∀ (base : List V) (out : String) (w : DotWriter V),
      writeGraphVertices g fuel (doubled g base) out w =
        processVertices g fuel (base.filter (fun v => !g.removed v)) out w := by
  intro base
  induction base with
  | nil => intro out w; rfl
  | cons u base ih =>
    intro out w
    cases hr : g.removed u with
    | true =>
      cases hp : isPalindrome g u with
      | true =>
        simp only [doubled, hp, if_true, List.filter_cons, hr, Bool.not_true,
          Bool.false_eq_true, if_false]
        rw [writeGraphVertices_removed_cons g fuel u _ out w hr,
          writeGraphVertices_removed_cons g fuel u _ out w hr]
        exact ih out w
      | false =>
        simp only [doubled, hp, Bool.false_eq_true, if_false, List.filter_cons, hr,
          Bool.not_true]
        rw [writeGraphVertices_removed_cons g fuel u _ out w hr]
        exact ih out w
    | false =>
      cases hp : isPalindrome g u with
      | true =>
        simp only [doubled, hp, if_true, List.filter_cons, hr, Bool.not_false, processVertices]
        rw [writeGraphVertices_skip_cons g fuel u u _ out w hr hp]
        cases visitVertex g fuel out w u with
        | error e => rfl
        | ok p => exact ih p.1 p.2
      | false =>
        simp only [doubled, hp, Bool.false_eq_true, if_false, List.filter_cons, hr,
          Bool.not_false, if_true, processVertices]
        rw [writeGraphVertices_plain_cons g fuel u _ out w hr hp]
        cases visitVertex g fuel out w u with
        | error e => rfl
        | ok p => exact ih p.1 p.2

theorem writeGraphEdges_doubled [DecidableEq V] (g : Graph V) (w : DotWriter V) :
    ∀ (base : List V) (out : String),
      writeGraphEdges g w (doubled g base) out =
        processEdges g w (base.filter (fun v => !g.removed v)) out := by
  intro base
  induction base with
  | nil => intro out; rfl
  | cons u base ih =>
    intro out
    cases hr : g.removed u with
    | true =>
      cases hp : isPalindrome g u with
      | true =>
        simp only [doubled, hp, if_true, List.filter_cons, hr, Bool.not_true,
          Bool.false_eq_true, if_false]
        rw [writeGraphEdges_removed_cons g w u _ out hr,
          writeGraphEdges_removed_cons g w u _ out hr]
        exact ih out
      | false =>
        simp only [doubled, hp, Bool.false_eq_true, if_false, List.filter_cons, hr,
          Bool.not_true]
        rw [writeGraphEdges_removed_cons g w u _ out hr]
        exact ih out
    | false =>
      cases hp : isPalindrome g u with
      | true =>
        simp only [doubled, hp, if_true, List.filter_cons, hr, Bool.not_false, processEdges]
        rw [writeGraphEdges_skip_cons g w u u _ out hr hp]
        cases visitEdges g w out u with
        | error e => rfl
        | ok p => exact ih p
      | false =>
        simp only [doubled, hp, Bool.false_eq_true, if_false, List.filter_cons, hr,
          Bool.not_false, if_true, processEdges]
        rw [writeGraphEdges_plain_cons g w u _ out hr hp]
        cases visitEdges g w out u with
        | error e => rfl
        | ok p => exact ih p

/-- C16 (skip-the-second-occurrence iteration).  In both loops of `writeGraph`, a removed
vertex is passed over without a skip, and after a palindromic vertex that is not removed has
been visited the next element of the sequence is skipped, whatever it is.  Hence, on a
vertex sequence in which every palindromic vertex occurs twice consecutively and every other
vertex once, each loop processes every vertex that is not removed exactly once, in order,
and skips no other vertex. -/
theorem skip_second_occurrence [DecidableEq V] (g : Graph V) (fuel : Nat) :
    (∀ u rest out w, g.removed u = true →
      writeGraphVertices g fuel (u :: rest) out w = writeGraphVertices g fuel rest out w ∧
      writeGraphEdges g w (u :: rest) out = writeGraphEdges g w rest out) ∧
    (∀ u x rest out w, g.removed u = false → isPalindrome g u = true →
      writeGraphVertices g fuel (u :: x :: rest) out w =
        (match visitVertex g fuel out w u with
          | .error e => .error e
          | .ok (out1, w1) => writeGraphVertices g fuel rest out1 w1) ∧
      writeGraphEdges g w (u :: x :: rest) out =
        (match visitEdges g w out u with
          | .error e => .error e
          | .ok out1 => writeGraphEdges g w rest out1)) ∧
    (∀ base out w,
      writeGraphVertices g fuel (doubled g base) out w =
        processVertices g fuel (base.filter (fun v => !g.removed v)) out w ∧
      writeGraphEdges g w (doubled g base) out =
        processEdges g w (base.filter (fun v => !g.removed v)) out) := by
  refine ⟨?_, ?_, ?_⟩
  · intro u rest out w hr
    exact ⟨writeGraphVertices_removed_cons g fuel u rest out w hr,
      writeGraphEdges_removed_cons g w u rest out hr⟩
  · intro u x rest out w hr hp
    exact ⟨writeGraphVertices_skip_cons g fuel u x rest out w hr hp,
      writeGraphEdges_skip_cons g w u x rest out hr hp⟩
  · intro base out w
    exact ⟨writeGraphVertices_doubled g fuel base out w, writeGraphEdges_doubled g w base out⟩

/-- Witness for C16 on `palGraph`, whose vertex sequence lists the palindrome `0` twice: the
first loop processes `1, 2, 0, 3, 4`, each once. -/
theorem skip_second_occurrence_witness :
    palGraph.vertices = doubled palGraph [1, 2, 0, 3, 4] ∧
    writeGraphVertices palGraph 1 palGraph.vertices "" DotWriter.new =
      processVertices palGraph 1 [1, 2, 0, 3, 4] "" DotWriter.new := by
  have h := ((skip_second_occurrence palGraph 1).2.2 [1, 2, 0, 3, 4] "" DotWriter.new).1
  have hv : palGraph.vertices = doubled palGraph [1, 2, 0, 3, 4] := by decide
  rw [hv]
  exact ⟨rfl, h⟩

/-! ## The assertion of the palindrome branch -/

/-- C13 (palindrome-branch assertion), evaluated where it fails.  `hairpinGraph` is
reverse-complement symmetric, `0` is a contig start, its walk stops at `1` with `n = 2`, the
canonical-orientation check passes and `rc(1) == 0`, so `writeContig(0)` reaches the branch
labelled `Palindrome` with `n ≠ 1` and stops at `assert(n == 1)`; so does `writeGraph`. -/
theorem palindrome_assertion_fails :
    hairpinGraph.RCSymmetric ∧ hairpinGraph.WellFormed ∧ hairpinGraph.StrictTotal ∧
    (∀ x, in_degree hairpinGraph x = out_degree hairpinGraph (hairpinGraph.rc x)) ∧
    hairpinGraph.vertices = doubled hairpinGraph [0, 1] ∧
    contiguous_in hairpinGraph 0 = false ∧
    walk hairpinGraph 2 1 0 = some (2, 1) ∧
    hairpinGraph.lt (hairpinGraph.rc 1) 0 = false ∧ hairpinGraph.rc 1 = 0 ∧
    writeContig hairpinGraph 2 "" DotWriter.new 0 = .error .palindromeLength ∧
    (∀ fuel, 2 ≤ fuel → write hairpinGraph fuel "" = .error .palindromeLength) := by
  refine ⟨⟨by decide, by decide⟩, ⟨by decide, by decide, by decide⟩,
    ⟨by decide, by decide, by decide⟩, by decide, by decide, by decide, by decide, by decide,
    by decide, rfl, ?_⟩
  intro fuel hf
  obtain ⟨m, rfl⟩ : ∃ m, fuel = m + 2 := ⟨fuel - 2, by omega⟩
  have hw : walk hairpinGraph (m + 2) 1 0 = some (2, 1) :=
    walk_complete hairpinGraph [0, 1] (m + 2) 1 0 1 rfl rfl
      (List.chain'_pair.mpr ⟨by decide, by decide⟩) (by decide) (by simp) (by decide)
  have hc : ∀ out, writeContig hairpinGraph (m + 2) out DotWriter.new 0 =
      .error .palindromeLength := by
    intro out
    unfold writeContig
    rw [hw]
    rfl
  have hcin : contiguous_in hairpinGraph 0 = false := by decide
  have hv : writeGraphVertices hairpinGraph (m + 2) hairpinGraph.vertices
      ("" ++ "digraph g \x7b\n") DotWriter.new = .error .palindromeLength := by
    show writeGraphVertices hairpinGraph (m + 2) [0, 1] _ _ = _
    rw [writeGraphVertices_plain_cons _ _ _ _ _ _ (by decide) (by decide)]
    simp [visitVertex, hcin, hc]
  unfold write writeGraph
  rw [hv]

/-! ## Termination of the walk -/

theorem chain_pred {R : V → V → Prop} : ∀ {l : List V} {b : V}, (b :: l).Chain' R →
    ∀ x ∈ l, ∃ y ∈ b :: l, R y x := by
  intro l
  induction l with
  | nil => intro b _ x hx; simp at hx
  | cons c l ih =>
    intro b h x hx
    obtain ⟨hbc, hrest⟩ := List.chain'_cons.mp h
    rcases List.mem_cons.mp hx with rfl | hx
    · exact ⟨b, List.mem_cons_self _ _, hbc⟩
    · obtain ⟨y, hy, hr⟩ := ih hrest x hx
      exact ⟨y, List.mem_cons_of_mem _ hy, hr⟩

/-- A walk step into `x` comes from the only predecessor of `x`. -/
theorem step_inAdj {g : Graph V} (hm : ∀ u p, p ∈ g.inAdj u ↔ u ∈ g.adj p) {a x : V}
    (h : Step g a x) : g.inAdj x = [a] ∧ out_degree g a = 1 := by
  obtain ⟨hc, hx⟩ := h
  obtain ⟨b, hb, hin⟩ := (contiguous_out_iff g a).mp hc
  rw [hb] at hx
  simp only [List.head?_cons, Option.some.injEq] at hx
  subst hx
  have hmem : a ∈ g.inAdj b := (hm b a).mpr (by simp [hb])
  obtain ⟨p, hp⟩ := List.length_eq_one.mp hin
  rw [hp] at hmem
  simp only [List.mem_singleton] at hmem
  subst hmem
  exact ⟨hp, by simp [out_degree, hb]⟩

theorem step_pred_unique {g : Graph V} (hm : ∀ u p, p ∈ g.inAdj u ↔ u ∈ g.adj p)
    {a b x : V} (ha : Step g a x) (hb : Step g b x) : a = b := by
  have h1 := (step_inAdj hm ha).1
  have h2 := (step_inAdj hm hb).1
  rw [h1] at h2
  simpa using h2

theorem step_contiguous_in {g : Graph V} (hm : ∀ u p, p ∈ g.inAdj u ↔ u ∈ g.adj p)
    {a x : V} (h : Step g a x) : contiguous_in g x = true :=
  (contiguous_in_iff g x).mpr ⟨a, (step_inAdj hm h).1, (step_inAdj hm h).2⟩

theorem chain_nodup {g : Graph V} (hm : ∀ u p, p ∈ g.inAdj u ↔ u ∈ g.adj p) :
    ∀ (l : List V) (a : V), (a :: l).Chain' (Step g) → a ∉ l → (a :: l).Nodup := by
  intro l
  induction l with
  | nil => intro a _ _; simp
  | cons b l ih =>
    intro a h ha
    obtain ⟨hab, hrest⟩ := List.chain'_cons.mp h
    refine List.nodup_cons.mpr ⟨ha, ih b hrest ?_⟩
    intro hb
    obtain ⟨y, hy, hyb⟩ := chain_pred hrest b hb
    have : y = a := step_pred_unique hm hyb hab
    rw [this] at hy
    exact ha hy

theorem start_not_mem {g : Graph V} (hm : ∀ u p, p ∈ g.inAdj u ↔ u ∈ g.adj p)
    {u : V} {l : List V} (hstart : contiguous_in g u = false) (h : (u :: l).Chain' (Step g)) :
    u ∉ l := by
  intro hu
  obtain ⟨y, _, hy⟩ := chain_pred h u hu
  rw [step_contiguous_in hm hy] at hstart
  exact absurd hstart (by decide)

theorem chain_subset {g : Graph V} (hclosed : ∀ a ∈ g.vertices, ∀ b ∈ g.adj a, b ∈ g.vertices) :
    ∀ (l : List V) (a : V), a ∈ g.vertices → (a :: l).Chain' (Step g) →
      ∀ x ∈ a :: l, x ∈ g.vertices := by
  intro l
  induction l with
  | nil =>
    intro a ha _ x hx
    simp only [List.mem_singleton] at hx
    rw [hx]
    exact ha
  | cons b l ih =>
    intro a ha h x hx
    obtain ⟨hab, hrest⟩ := List.chain'_cons.mp h
    rcases List.mem_cons.mp hx with rfl | hx
    · exact ha
    · exact ih b (hclosed a ha b (List.mem_of_mem_head? hab.2)) hrest x hx

/-- A walk that runs out of its budget has made as many steps as the budget allows. -/
theorem walk_none (g : Graph V) : ∀ (fuel n : Nat) (u : V), walk g fuel n u = none →
    ∃ l : List V, (u :: l).Chain' (Step g) ∧ l.length = fuel := by
  intro fuel
  induction fuel with
  | zero => intro n u _; exact ⟨[], List.chain'_singleton _, rfl⟩
  | succ fuel ih =>
    intro n u h
    rw [walk] at h
    by_cases hc : contiguous_out g u = true
    · rw [if_pos hc] at h
      obtain ⟨b, hb, _⟩ := (contiguous_out_iff g u).mp hc
      have hx : (g.adj u).head? = some b := by simp [hb]
      rw [hx] at h
      obtain ⟨l, hl, hlen⟩ := ih _ b h
      exact ⟨b :: l, List.chain'_cons.mpr ⟨⟨hc, hx⟩, hl⟩, by simp [hlen]⟩
    · rw [if_neg hc] at h
      simp at h

theorem nodup_length_le [DecidableEq V] {l vs : List V} (hn : l.Nodup)
    (hs : ∀ x ∈ l, x ∈ vs) : l.length ≤ vs.toFinset.card := by
  rw [← List.toFinset_card_of_nodup hn]
  apply Finset.card_le_card
  intro x hx
  rw [List.mem_toFinset] at hx ⊢
  exact hs x hx

/-- C17 (walk termination).  In a graph whose in-degrees count the in-edges and whose finite
vertex set `|V|` is closed under the successor lists, the contiguous-out walk of
`writeContig(u)` from a start `u` that is not contiguous-in visits no vertex twice; its path
has at most `|V|` vertices, that is at most `|V| - 1` steps, and the walk stops at the last
vertex of the path for every budget of at least `|V|` loop tests. -/
theorem walk_termination [DecidableEq V] (g : Graph V) (hw : g.WellFormed) (u : V)
    (hu : u ∈ g.vertices) (hclosed : ∀ a ∈ g.vertices, ∀ b ∈ g.adj a, b ∈ g.vertices)
    (hstart : contiguous_in g u = false) :
    ∃ (path : List V) (v : V),
      path.head? = some u ∧ path.getLast? = some v ∧ path.Chain' (Step g) ∧
      contiguous_out g v = false ∧ path.Nodup ∧
      path.length - 1 ≤ g.vertices.toFinset.card - 1 ∧
      ∀ fuel, g.vertices.toFinset.card ≤ fuel →
        walk g fuel 1 u = some (path.length % UINT, v) := by
  have hm := hw.mem_inAdj
  have hbound : ∀ l : List V, (u :: l).Chain' (Step g) →
      (u :: l).Nodup ∧ (u :: l).length ≤ g.vertices.toFinset.card := by
    intro l hl
    have hn := chain_nodup hm l u hl (start_not_mem hm hstart hl)
    exact ⟨hn, nodup_length_le hn (chain_subset hclosed l u hu hl)⟩
  cases hrun : walk g g.vertices.toFinset.card 1 u with
  | none =>
    obtain ⟨l, hl, hlen⟩ := walk_none g _ _ _ hrun
    have := (hbound l hl).2
    simp only [List.length_cons] at this
    omega
  | some r =>
    obtain ⟨n, v⟩ := r
    obtain ⟨l, h1, h2, h3, h4, _, _⟩ := walk_sound g _ 1 u n v (by decide) hrun
    cases l with
    | nil => simp at h1
    | cons a l =>
      simp only [List.head?_cons, Option.some.injEq] at h1
      subst h1
      obtain ⟨hn, hlen⟩ := hbound l h3
      refine ⟨a :: l, v, rfl, h2, h3, h4, hn, by omega, ?_⟩
      intro fuel hf
      rw [walk_complete g (a :: l) fuel 1 a v rfl h2 h3 h4 (by omega) (by decide)]
      have e : 1 + ((a :: l).length - 1) = (a :: l).length := by
        simp only [List.length_cons]
        omega
      rw [e]

/-- Witness for C17 on `chainGraph`: the walk from `0` stops within 6 loop tests. -/
theorem walk_termination_witness :
    ((0 : Fin 6) ∈ chainGraph.vertices ∧ contiguous_in chainGraph 0 = false) ∧
    ∃ (path : List (Fin 6)) (v : Fin 6), path.Nodup ∧
      walk chainGraph 6 1 0 = some (path.length % UINT, v) := by
  obtain ⟨path, v, _, _, _, _, hn, _, hf⟩ :=
    walk_termination chainGraph chainGraph_wellFormed 0 (by decide) (by decide) (by decide)
  exact ⟨⟨by decide, by decide⟩, path, v, hn, hf 6 (by decide)⟩

/-! ## No duplicate registration -/

theorem writeContig_duplicate [DecidableEq V] (g : Graph V) (fuel : Nat) (out : String)
    (w : DotWriter V) (u : V) (h : writeContig g fuel out w u = .error .duplicateVertex) :
    ∃ n t, walk g fuel 1 u = some (n, t) ∧ g.lt (g.rc t) u = false ∧
      ((∃ s, w.m_names u = some s) ∨ (u ≠ g.rc t ∧ ∃ s, w.m_names (g.rc t) = some s)) := by
  cases hw : walk g fuel 1 u with
  | none => simp [writeContig, hw] at h
  | some r =>
    obtain ⟨n, t⟩ := r
    cases hlt : g.lt (g.rc t) u with
    | true => rw [writeContig_skip g fuel out w hw hlt] at h; simp at h
    | false =>
      refine ⟨n, t, rfl, hlt, ?_⟩
      cases hu : w.m_names u with
      | some s => exact Or.inl ⟨s, rfl⟩
      | none =>
        right
        have h1 : setName { w with m_id := (w.m_id + 1) % UINT } u (toString w.m_id ++ "+") =
            .ok (DotWriter.mk (Function.update w.m_names u (some (toString w.m_id ++ "+")))
              ((w.m_id + 1) % UINT)) := by
          rw [setName_of_none _ (by exact hu)]
        by_cases he : u = g.rc t
        · exfalso
          by_cases hn : n = 1
          · rw [writeContig_emit g fuel out w hw hlt hu (fun hne => absurd he hne)
              (fun _ => hn)] at h
            simp at h
          · have hlt2 : g.lt u u = false := by rw [← he] at hlt; exact hlt
            simp [writeContig, hw, hlt2, h1, ← he, hn] at h
        · refine ⟨he, ?_⟩
          cases hv : w.m_names (g.rc t) with
          | some s => exact ⟨s, rfl⟩
          | none =>
            rw [writeContig_emit g fuel out w hw hlt hu (fun _ => hv)
              (fun h2 => absurd h2 he)] at h
            simp at h

theorem named_key [DecidableEq V] (w : DotWriter V) (a b x : V) (s : String)
    (h : (named w a b).m_names x = some s) : x = a ∨ x = b ∨ w.m_names x = some s := by
  unfold named at h
  by_cases he : a = b
  · rw [if_pos he] at h
    dsimp only at h
    by_cases hx : x = a
    · exact Or.inl hx
    · rw [Function.update_noteq hx] at h
      exact Or.inr (Or.inr h)
  · rw [if_neg he] at h
    dsimp only at h
    by_cases hxb : x = b
    · exact Or.inr (Or.inl hxb)
    · rw [Function.update_noteq hxb] at h
      by_cases hx : x = a
      · exact Or.inl hx
      · rw [Function.update_noteq hx] at h
        exact Or.inr (Or.inr h)

theorem keysFrom_mono {g : Graph V} {fuel : Nat} {p q : List V} {w : DotWriter V}
    (h : KeysFrom g fuel p w) (hpq : ∀ x ∈ p, x ∈ q) : KeysFrom g fuel q w := by
  intro x s hx
  obtain ⟨a, ha, rest⟩ := h x s hx
  exact ⟨a, hpq a ha, rest⟩

/-- One visit of the first loop at a vertex that has not been processed yet neither stops at
the assertion of `setName` nor breaks the account of the registry. -/
theorem visitVertex_keysFrom [DecidableEq V] {g : Graph V} (hw : g.WellFormed)
    (hs : g.RCSymmetric) (ho : g.StrictTotal) (fuel : Nat) (out : String) (w : DotWriter V)
    (u : V) (p : List V) (hk : KeysFrom g fuel p w) (hu : u ∉ p) :
    visitVertex g fuel out w u ≠ .error .duplicateVertex ∧
    ∀ out1 w1, visitVertex g fuel out w u = .ok (out1, w1) → KeysFrom g fuel (u :: p) w1 := by
  have hd := in_degree_rc hw hs
  have hm := hw.mem_inAdj
  unfold visitVertex
  cases hcin : contiguous_in g u with
  | true =>
    simp only [Bool.not_true, Bool.false_eq_true, if_false]
    refine ⟨by simp, ?_⟩
    intro out1 w1 h
    simp only [Except.ok.injEq, Prod.mk.injEq] at h
    rw [← h.2]
    exact keysFrom_mono hk (fun x hx => List.mem_cons_of_mem _ hx)
  | false =>
    simp only [Bool.not_false, if_true]
    constructor
    · intro h
      obtain ⟨n, t, hwk, hlt, hdup⟩ := writeContig_duplicate g fuel out w u h
      have hwk2 := walk_rc hs hd hm hcin hwk
      rcases hdup with ⟨s, hkey⟩ | ⟨hne, s, hkey⟩
      · obtain ⟨a, ha, n2, t2, hwa, hca, hlta, hx⟩ := hk u s hkey
        rcases hx with rfl | hx
        · exact hu ha
        · have hwa2 := walk_rc hs hd hm hca hwa
          rw [← hx, hwk] at hwa2
          simp only [Option.some.injEq, Prod.mk.injEq] at hwa2
          have hta : g.rc t = a := by rw [hwa2.2, hs.rc_rc]
          rw [hta] at hlt
          rw [← hx] at hlta
          by_cases hau : a = u
          · rw [hau] at ha
            exact hu ha
          · rcases ho.total a u hau with h1 | h1
            · rw [hlt] at h1
              exact absurd h1 (by decide)
            · rw [hlta] at h1
              exact absurd h1 (by decide)
      · obtain ⟨a, ha, n2, t2, hwa, hca, hlta, hx⟩ := hk (g.rc t) s hkey
        rcases hx with hx | hx
        · rw [hx, hwa] at hwk2
          simp only [Option.some.injEq, Prod.mk.injEq] at hwk2
          rw [hwk2.2, hs.rc_rc, ← hx] at hlta
          rcases ho.total u (g.rc t) hne with h1 | h1
          · rw [hlta] at h1
            exact absurd h1 (by decide)
          · rw [hlt] at h1
            exact absurd h1 (by decide)
        · have hwa2 := walk_rc hs hd hm hca hwa
          rw [← hx, hwk2] at hwa2
          simp only [Option.some.injEq, Prod.mk.injEq] at hwa2
          have : u = a := rc_injective hs hwa2.2
          rw [← this] at ha
          exact hu ha
    · intro out1 w1 h
      obtain ⟨n, t, hwk, hc⟩ := writeContig_ok_cases g fuel out w u h
      rcases hc with ⟨_, _, h3⟩ | ⟨hlt, _, _, _, _, h3⟩
      · rw [h3]
        exact keysFrom_mono hk (fun x hx => List.mem_cons_of_mem _ hx)
      · rw [h3]
        intro x s hx
        rcases named_key w u (g.rc t) x s hx with hx | hx | hx
        · exact ⟨u, List.mem_cons_self _ _, n, t, hwk, hcin, hlt, Or.inl hx⟩
        · exact ⟨u, List.mem_cons_self _ _, n, t, hwk, hcin, hlt, Or.inr hx⟩
        · obtain ⟨a, ha, rest⟩ := hk x s hx
          exact ⟨a, List.mem_cons_of_mem _ ha, rest⟩

theorem processVertices_no_duplicate [DecidableEq V] {g : Graph V} (hw : g.WellFormed)
    (hs : g.RCSymmetric) (ho : g.StrictTotal) (fuel : Nat) :
    ∀ (l p : List V) (out : String) (w : DotWriter V), l.Nodup → (∀ x ∈ l, x ∉ p) →
      KeysFrom g fuel p w →
      processVertices g fuel l out w ≠ .error .duplicateVertex ∧
      ∀ out2 w2, processVertices g fuel l out w = .ok (out2, w2) →
        KeysFrom g fuel (l.reverse ++ p) w2 := by
  intro l
  induction l with
  | nil =>
    intro p out w _ _ hk
    refine ⟨by simp [processVertices], ?_⟩
    intro out2 w2 h
    simp only [processVertices, Except.ok.injEq, Prod.mk.injEq] at h
    rw [← h.2]
    simpa using hk
  | cons u l ih =>
    intro p out w hn hp hk
    obtain ⟨hul, hnl⟩ := List.nodup_cons.mp hn
    obtain ⟨h1, h2⟩ := visitVertex_keysFrom hw hs ho fuel out w u p hk
      (hp u (List.mem_cons_self _ _))
    rw [processVertices]
    cases hv : visitVertex g fuel out w u with
    | error e =>
      rw [hv] at h1
      refine ⟨?_, by simp⟩
      simp only
      exact h1
    | ok r =>
      obtain ⟨out1, w1⟩ := r
      simp only
      have hp2 : ∀ x ∈ l, x ∉ u :: p := by
        intro x hx hxp
        rcases List.mem_cons.mp hxp with rfl | hxp
        · exact hul hx
        · exact hp x (List.mem_cons_of_mem _ hx) hxp
      obtain ⟨h3, h4⟩ := ih (u :: p) out1 w1 hnl hp2 (h2 out1 w1 hv)
      refine ⟨h3, ?_⟩
      intro out2 w2 h
      have := h4 out2 w2 h
      simpa using this

theorem keysFrom_new (g : Graph V) (fuel : Nat) : KeysFrom g fuel [] (DotWriter.new) := by
  intro x s h
  simp [DotWriter.new] at h

theorem palGraph_strictTotal : palGraph.StrictTotal := ⟨by decide, by decide, by decide⟩

/-- C15 (no duplicate registration).  In a reverse-complement symmetric graph with a strict
total order on the vertices, on a vertex sequence in which every palindromic vertex occurs
twice consecutively and every other vertex once, no `setName` call of the first loop of
`writeGraph`, started from a fresh `DotWriter`, targets a vertex that is already a key: the
loop never stops at the assertion of `setName`.  When it returns, every key of the registry is
a start named in the canonical orientation or the reverse complement of the terminal of such
a start. -/
theorem no_duplicate_registration [DecidableEq V] (g : Graph V) (hw : g.WellFormed)
    (hs : g.RCSymmetric) (ho : g.StrictTotal) (fuel : Nat) (base : List V)
    (hnd : base.Nodup) (out : String) :
    writeGraphVertices g fuel (doubled g base) out DotWriter.new ≠ .error .duplicateVertex ∧
    ∀ out2 w2, writeGraphVertices g fuel (doubled g base) out DotWriter.new = .ok (out2, w2) →
      KeysFrom g fuel base w2 := by
  rw [writeGraphVertices_doubled]
  obtain ⟨h1, h2⟩ := processVertices_no_duplicate hw hs ho fuel
    (base.filter (fun v => !g.removed v)) [] out DotWriter.new (hnd.filter _)
    (fun _ _ => List.not_mem_nil _) (keysFrom_new g fuel)
  refine ⟨h1, ?_⟩
  intro out2 w2 h
  refine keysFrom_mono (h2 out2 w2 h) ?_
  intro x hx
  simp only [List.append_nil, List.mem_reverse] at hx
  exact List.mem_of_mem_filter hx

/-- Witness for C15 on `palGraph`, whose vertex sequence lists the palindrome `0` twice. -/
theorem no_duplicate_registration_witness :
    (([1, 2, 0, 3, 4] : List (Fin 5)).Nodup ∧
      palGraph.vertices = doubled palGraph [1, 2, 0, 3, 4]) ∧
    writeGraphVertices palGraph 1 palGraph.vertices "" DotWriter.new ≠
      .error .duplicateVertex := by
  have h := (no_duplicate_registration palGraph palGraph_wellFormed palGraph_rcSymmetric
    palGraph_strictTotal 1 [1, 2, 0, 3, 4] (by decide) "").1
  have hv : palGraph.vertices = doubled palGraph [1, 2, 0, 3, 4] := by decide
  rw [hv]
  exact ⟨⟨by decide, rfl⟩, h⟩

/-! ## The registry after the vertex pass -/

theorem writeContig_mono [DecidableEq V] (g : Graph V) (fuel : Nat) (out : String)
    (w : DotWriter V) (u : V) {out1 : String} {w1 : DotWriter V}
    (h : writeContig g fuel out w u = .ok (out1, w1)) {x : V} (hx : Named w x) :
    Named w1 x := by
  obtain ⟨n, t, _, hc⟩ := writeContig_ok_cases g fuel out w u h
  rcases hc with ⟨_, _, h3⟩ | ⟨_, hu, hv, _, _, h3⟩
  · rw [h3]
    exact hx
  · obtain ⟨s, hs⟩ := hx
    have hxu : x ≠ u := by
      intro e
      rw [e, hu] at hs
      exact absurd hs (by simp)
    refine ⟨s, ?_⟩
    rw [h3]
    unfold named
    by_cases he : u = g.rc t
    · rw [if_pos he]
      dsimp only
      rw [Function.update_noteq hxu]
      exact hs
    · rw [if_neg he]
      dsimp only
      have hxv : x ≠ g.rc t := by
        intro e
        rw [e, hv he] at hs
        exact absurd hs (by simp)
      rw [Function.update_noteq hxv, Function.update_noteq hxu]
      exact hs

theorem visitVertex_mono [DecidableEq V] (g : Graph V) (fuel : Nat) (out : String)
    (w : DotWriter V) (u : V) {out1 : String} {w1 : DotWriter V}
    (h : visitVertex g fuel out w u = .ok (out1, w1)) {x : V} (hx : Named w x) :
    Named w1 x := by
  unfold visitVertex at h
  by_cases hc : (!contiguous_in g u) = true
  · rw [if_pos hc] at h
    exact writeContig_mono g fuel out w u h hx
  · rw [if_neg hc] at h
    simp only [Except.ok.injEq, Prod.mk.injEq] at h
    rw [← h.2]
    exact hx

theorem processVertices_mono [DecidableEq V] (g : Graph V) (fuel : Nat) :
    ∀ (l : List V) (out : String) (w : DotWriter V) (out2 : String) (w2 : DotWriter V),
      processVertices g fuel l out w = .ok (out2, w2) → ∀ x, Named w x → Named w2 x := by
  intro l
  induction l with
  | nil =>
    intro out w out2 w2 h x hx
    simp only [processVertices, Except.ok.injEq, Prod.mk.injEq] at h
    rw [← h.2]
    exact hx
  | cons u l ih =>
    intro out w out2 w2 h x hx
    rw [processVertices] at h
    cases hv : visitVertex g fuel out w u with
    | error e => rw [hv] at h; simp at h
    | ok r =>
      obtain ⟨out1, w1⟩ := r
      rw [hv] at h
      exact ih out1 w1 out2 w2 h x (visitVertex_mono g fuel out w u hv hx)

/-- What a returning run of the first loop has done at each contig start it processed: the
walk stopped, and the contig was skipped for its orientation or its two keys are named. -/
theorem processVertices_outcome [DecidableEq V] (g : Graph V) (fuel : Nat) :
    ∀ (l : List V) (out : String) (w : DotWriter V) (out2 : String) (w2 : DotWriter V),
      processVertices g fuel l out w = .ok (out2, w2) →
      ∀ s ∈ l, contiguous_in g s = false →
        ∃ n t, walk g fuel 1 s = some (n, t) ∧
          (g.lt (g.rc t) s = true ∨ (Named w2 s ∧ Named w2 (g.rc t))) := by
  intro l
  induction l with
  | nil => intro out w out2 w2 _ s hs; simp at hs
  | cons u l ih =>
    intro out w out2 w2 h s hs hcin
    rw [processVertices] at h
    cases hv : visitVertex g fuel out w u with
    | error e => rw [hv] at h; simp at h
    | ok r =>
      obtain ⟨out1, w1⟩ := r
      rw [hv] at h
      simp only at h
      rcases List.mem_cons.mp hs with rfl | hs
      · unfold visitVertex at hv
        simp only [hcin, Bool.not_false, if_true] at hv
        obtain ⟨n, t, hwk, hc⟩ := writeContig_ok_cases g fuel out w s hv
        refine ⟨n, t, hwk, ?_⟩
        rcases hc with ⟨h1, _⟩ | ⟨_, _, _, _, _, h3⟩
        · exact Or.inl h1
        · right
          have hs1 : Named w1 s := by
            rw [h3]
            by_cases he : s = g.rc t
            · exact ⟨toString w.m_id ++ "+", by simp [named, ← he]⟩
            · exact ⟨toString w.m_id ++ "+", by simp [named, he, Function.update_noteq he]⟩
          have hs2 : Named w1 (g.rc t) := by
            rw [h3]
            by_cases he : s = g.rc t
            · exact ⟨toString w.m_id ++ "+", by simp [named, ← he]⟩
            · exact ⟨toString w.m_id ++ "-", by simp [named, he]⟩
          exact ⟨processVertices_mono g fuel l out1 w1 out2 w2 h _ hs1,
            processVertices_mono g fuel l out1 w1 out2 w2 h _ hs2⟩
      · exact ih out1 w1 out2 w2 h s hs hcin

theorem chain_forall {g : Graph V} {q : V → Prop} (hq : ∀ a, q a → ∀ b ∈ g.adj a, q b) :
    ∀ (l : List V) (a : V), q a → (a :: l).Chain' (Step g) → ∀ x ∈ a :: l, q x := by
  intro l
  induction l with
  | nil =>
    intro a ha _ x hx
    simp only [List.mem_singleton] at hx
    rw [hx]
    exact ha
  | cons b l ih =>
    intro a ha h x hx
    obtain ⟨hab, hrest⟩ := List.chain'_cons.mp h
    rcases List.mem_cons.mp hx with rfl | hx
    · exact ha
    · exact ih b (hq a ha b (List.mem_of_mem_head? hab.2)) hrest x hx

theorem walk_terminal_forall {g : Graph V} {q : V → Prop}
    (hq : ∀ a, q a → ∀ b ∈ g.adj a, q b) {fuel n : Nat} {u v : V}
    (h : walk g fuel 1 u = some (n, v)) (hu : q u) : q v := by
  obtain ⟨l, h1, h2, h3, _, _, _⟩ := walk_sound g fuel 1 u n v (by decide) h
  cases l with
  | nil => simp at h1
  | cons a l =>
    simp only [List.head?_cons, Option.some.injEq] at h1
    subst h1
    exact chain_forall hq l a hu h3 v (List.mem_of_mem_getLast? h2)

/-- After a returning run of the first loop over all the vertices that are not removed,
every contig start that is not removed is a key of the registry. -/
theorem processVertices_named [DecidableEq V] {g : Graph V} (hw : g.WellFormed)
    (hs : g.RCSymmetric) (ho : g.StrictTotal)
    (hrem_rc : ∀ x, g.removed (g.rc x) = g.removed x)
    (hrem_adj : ∀ a, g.removed a = false → ∀ b ∈ g.adj a, g.removed b = false)
    (fuel : Nat) (l : List V) (hl : ∀ x, g.removed x = false → x ∈ l)
    (out : String) (w : DotWriter V) (out2 : String) (w2 : DotWriter V)
    (h : processVertices g fuel l out w = .ok (out2, w2)) (s : V)
    (hr : g.removed s = false) (hcin : contiguous_in g s = false) : Named w2 s := by
  have hd := in_degree_rc hw hs
  have hm := hw.mem_inAdj
  obtain ⟨n, t, hwk, hc⟩ := processVertices_outcome g fuel l out w out2 w2 h s (hl s hr) hcin
  rcases hc with hlt | ⟨h1, _⟩
  · have hrt : g.removed (g.rc t) = false := by
      rw [hrem_rc]
      exact walk_terminal_forall (q := fun x => g.removed x = false) hrem_adj hwk hr
    have hct : contiguous_in g (g.rc t) = false := by
      rw [contiguous_in_eq hs hd hm, hs.rc_rc]
      obtain ⟨_, _, _, _, h4, _⟩ := walk_sound g fuel 1 s n t (by decide) hwk
      exact h4
    obtain ⟨n2, t2, hwk2, hc2⟩ :=
      processVertices_outcome g fuel l out w out2 w2 h (g.rc t) (hl _ hrt) hct
    rw [walk_rc hs hd hm hcin hwk] at hwk2
    simp only [Option.some.injEq, Prod.mk.injEq] at hwk2
    rw [← hwk2.2, hs.rc_rc] at hc2
    rcases hc2 with hlt2 | ⟨_, h2⟩
    · have := ho.trans _ _ _ hlt hlt2
      rw [ho.irrefl] at this
      exact absurd this (by decide)
    · exact h2
  · exact h1

/-- A successor of a vertex that is not contiguous-out is not contiguous-in. -/
theorem successor_not_contiguous_in {g : Graph V} (hm : ∀ u p, p ∈ g.inAdj u ↔ u ∈ g.adj p)
    {u x : V} (hu : contiguous_out g u = false) (hx : x ∈ g.adj u) :
    contiguous_in g x = false := by
  cases hc : contiguous_in g x with
  | false => rfl
  | true =>
    exfalso
    obtain ⟨p, hp, hout⟩ := (contiguous_in_iff g x).mp hc
    have hmem : u ∈ g.inAdj x := (hm x u).mpr hx
    rw [hp] at hmem
    simp only [List.mem_singleton] at hmem
    subst hmem
    obtain ⟨b, hb⟩ := List.length_eq_one.mp hout
    rw [hb] at hx
    simp only [List.mem_singleton] at hx
    subst hx
    have : contiguous_out g u = true :=
      (contiguous_out_iff g u).mpr ⟨x, hb, by simp [in_degree, hp]⟩
    rw [hu] at this
    exact absurd this (by decide)

/-! ## The edge pass completes -/

theorem isContigName_flipSign {s : String} (h : IsContigName s) : IsContigName (flipSign s) := by
  unfold flipSign
  rcases h with h | h
  · rw [if_pos h]
    right
    simp
  · have h2 : s.data.getLast? ≠ some '+' := by
      rw [h]
      decide
    rw [if_neg h2, if_pos h]
    left
    simp

theorem writeEdgesAs_total [DecidableEq V] (g : Graph V) (w : DotWriter V)
    (hreg : RegistryValid w) (u : V) (hn : ∀ v ∈ g.adj u, Named w v) (out uname : String) :
    ∃ out2, writeEdgesAs g w out u uname = .ok out2 := by
  unfold writeEdgesAs
  by_cases hd : out_degree g u = 0
  · rw [if_pos hd]
    exact ⟨out, rfl⟩
  · rw [if_neg hd, (writeNeighbours_named g w hreg (g.adj u) _ hn).1]
    exact ⟨_, rfl⟩

theorem writeEdges_total [DecidableEq V] (g : Graph V) (w : DotWriter V)
    (hreg : RegistryValid w) (u : V) (hu : Named w (g.rc u))
    (hn : ∀ v ∈ g.adj u, Named w v) (out : String) :
    ∃ out2, writeEdges g w out u = .ok out2 := by
  obtain ⟨s, hs⟩ := hu
  have hname := hreg _ s hs
  have h1 : sourceName g w u = .ok (flipSign s) := by
    simp only [sourceName, getName, hs]
    exact complementName_of_contigName hname
  obtain ⟨o1, ho1⟩ := writeEdgesAs_total g w hreg u hn out (flipSign s)
  rw [writeEdges_eq, h1]
  simp only [ho1, complementName_of_contigName (isContigName_flipSign hname)]
  by_cases hp : isPalindrome g u = true
  · rw [if_pos hp]
    exact writeEdgesAs_total g w hreg u hn o1 _
  · rw [if_neg hp]
    exact ⟨o1, rfl⟩

theorem processEdges_total [DecidableEq V] (g : Graph V) (w : DotWriter V)
    (hreg : RegistryValid w) :
    ∀ (l : List V) (out : String),
      (∀ u ∈ l, contiguous_out g u = false → Named w (g.rc u) ∧ ∀ v ∈ g.adj u, Named w v) →
      ∃ out2, processEdges g w l out = .ok out2 := by
  intro l
  induction l with
  | nil => intro out _; exact ⟨out, rfl⟩
  | cons u l ih =>
    intro out h
    have hv : ∃ o1, visitEdges g w out u = .ok o1 := by
      unfold visitEdges
      cases hc : contiguous_out g u with
      | true => exact ⟨out, by simp⟩
      | false =>
        simp only [Bool.not_false, if_true]
        obtain ⟨h1, h2⟩ := h u (List.mem_cons_self _ _) hc
        exact writeEdges_total g w hreg u h1 h2 out
    obtain ⟨o1, ho1⟩ := hv
    rw [processEdges, ho1]
    exact ih o1 (fun x hx => h x (List.mem_cons_of_mem _ hx))

/-! ## Name lookups in the edge pass -/

/-- C14 as stated fails: three graphs that are reverse-complement symmetric, carry a strict
total order and list every vertex that is not removed, on which the vertex pass returns and
yet a vertex that is not removed and not contiguous-out has an out-neighbour, or a
complement, that is not a key, so that `getName` stops the edge pass.  In `palOnceGraph` the
palindrome is listed once and the skip passes over the vertex `1`; in `removedEdgeGraph` the
vertex `0` has the removed successor `2`; in `removedComplementGraph` the complement of the
vertex `1` is removed. -/
theorem edge_lookups_counterexample :
    (palOnceGraph.RCSymmetric ∧ palOnceGraph.WellFormed ∧ palOnceGraph.StrictTotal ∧
      (∀ x, palOnceGraph.removed x = false → x ∈ palOnceGraph.vertices) ∧
      writeGraphVertices palOnceGraph 1 palOnceGraph.vertices "" DotWriter.new =
        .ok ("\"0+\" [l=5]\n\"0-\" [l=5]\n\"1+\" [l=5]\n\"1-\" [l=5]\n",
          named (named DotWriter.new 0 0) 3 4) ∧
      palOnceGraph.removed 0 = false ∧ contiguous_out palOnceGraph 0 = false ∧
      (2 : Fin 5) ∈ palOnceGraph.adj 0 ∧
      (named (named (DotWriter.new : DotWriter (Fin 5)) 0 0) 3 4).m_names 2 = none ∧
      write palOnceGraph 1 "" = .error .cannotFindVertex) ∧
    (removedEdgeGraph.RCSymmetric ∧ removedEdgeGraph.WellFormed ∧
      removedEdgeGraph.StrictTotal ∧
      (∀ x, removedEdgeGraph.removed x = false → x ∈ removedEdgeGraph.vertices) ∧
      removedEdgeGraph.vertices = doubled removedEdgeGraph [0, 1, 4, 5] ∧
      writeGraphVertices removedEdgeGraph 1 removedEdgeGraph.vertices "" DotWriter.new =
        .ok ("\"0+\" [l=5]\n\"0-\" [l=5]\n\"1+\" [l=5]\n\"1-\" [l=5]\n",
          named (named DotWriter.new 0 1) 4 5) ∧
      removedEdgeGraph.removed 0 = false ∧ contiguous_out removedEdgeGraph 0 = false ∧
      (2 : Fin 6) ∈ removedEdgeGraph.adj 0 ∧
      (named (named (DotWriter.new : DotWriter (Fin 6)) 0 1) 4 5).m_names 2 = none ∧
      write removedEdgeGraph 1 "" = .error .cannotFindVertex) ∧
    (removedComplementGraph.RCSymmetric ∧ removedComplementGraph.WellFormed ∧
      removedComplementGraph.StrictTotal ∧
      (∀ x, removedComplementGraph.removed x = false → x ∈ removedComplementGraph.vertices) ∧
      removedComplementGraph.vertices = doubled removedComplementGraph [1] ∧
      writeGraphVertices removedComplementGraph 1 removedComplementGraph.vertices ""
        DotWriter.new = .ok ("", DotWriter.new) ∧
      removedComplementGraph.removed 1 = false ∧
      contiguous_out removedComplementGraph 1 = false ∧
      (DotWriter.new : DotWriter (Fin 2)).m_names (removedComplementGraph.rc 1) = none ∧
      write removedComplementGraph 1 "" = .error .cannotFindVertex) := by
  refine ⟨⟨⟨by decide, by decide⟩, ⟨by decide, by decide, by decide⟩,
      ⟨by decide, by decide, by decide⟩, by decide, rfl, rfl, by decide, by decide, rfl, rfl⟩,
    ⟨⟨by decide, by decide⟩, ⟨by decide, by decide, by decide⟩,
      ⟨by decide, by decide, by decide⟩, by decide, by decide, rfl, rfl, by decide, by decide,
      rfl, rfl⟩,
    ⟨⟨by decide, by decide⟩, ⟨by decide, by decide, by decide⟩,
      ⟨by decide, by decide, by decide⟩, by decide, by decide, rfl, rfl, by decide, rfl, rfl⟩⟩

/-- C14, amended (name lookups in the edge pass never fail).  Let the graph be
reverse-complement symmetric with a strict total order, let the removed flags be
complement-symmetric and no vertex that is not removed have a removed successor, and let the
vertex sequence list every vertex that is not removed, every palindromic vertex twice
consecutively and every other vertex once.  After the vertex pass of `writeGraph`, started
from a fresh `DotWriter`, has returned, for every vertex `u` that is not removed and not
contiguous-out, `rc(u)` and every out-neighbour of `u` are keys of the registry, and the edge
pass returns: every `getName` call made by `writeEdges` succeeds. -/
theorem edge_lookups_succeed [DecidableEq V] (g : Graph V) (hw : g.WellFormed)
    (hs : g.RCSymmetric) (ho : g.StrictTotal)
    (hrem_rc : ∀ x, g.removed (g.rc x) = g.removed x)
    (hrem_adj : ∀ a, g.removed a = false → ∀ b ∈ g.adj a, g.removed b = false)
    (fuel : Nat) (base : List V) (hlist : ∀ x, g.removed x = false → x ∈ base)
    (out out1 : String) (w1 : DotWriter V)
    (h : writeGraphVertices g fuel (doubled g base) out DotWriter.new = .ok (out1, w1)) :
    (∀ u, g.removed u = false → contiguous_out g u = false →
      Named w1 (g.rc u) ∧ ∀ x ∈ g.adj u, Named w1 x) ∧
    ∃ out2, writeGraphEdges g w1 (doubled g base) out1 = .ok out2 := by
  have hd := in_degree_rc hw hs
  have hm := hw.mem_inAdj
  have hreg := writeGraphVertices_registryValid g fuel _ out out1 w1 h
  rw [writeGraphVertices_doubled] at h
  have hl : ∀ x, g.removed x = false → x ∈ base.filter (fun v => !g.removed v) := by
    intro x hx
    exact List.mem_filter.mpr ⟨hlist x hx, by simp [hx]⟩
  have hnamed : ∀ s, g.removed s = false → contiguous_in g s = false → Named w1 s :=
    processVertices_named hw hs ho hrem_rc hrem_adj fuel _ hl out _ out1 w1 h
  have hkeys : ∀ u, g.removed u = false → contiguous_out g u = false →
      Named w1 (g.rc u) ∧ ∀ x ∈ g.adj u, Named w1 x := by
    intro u hr hc
    constructor
    · refine hnamed _ (by rw [hrem_rc]; exact hr) ?_
      rw [contiguous_in_eq hs hd hm, hs.rc_rc]
      exact hc
    · intro x hx
      exact hnamed x (hrem_adj u hr x hx) (successor_not_contiguous_in hm hc hx)
  refine ⟨hkeys, ?_⟩
  rw [writeGraphEdges_doubled]
  apply processEdges_total g w1 hreg
  intro u hu hc
  have hr : g.removed u = false := by
    have := (List.mem_filter.mp hu).2
    simpa using this
  exact hkeys u hr hc

/-- Witness for C14 on `palGraph`: after the vertex pass the edge pass returns. -/
theorem edge_lookups_succeed_witness :
    (palGraph.vertices = doubled palGraph [1, 2, 0, 3, 4] ∧
      ∀ x, palGraph.removed x = false → x ∈ ([1, 2, 0, 3, 4] : List (Fin 5))) ∧
    ∃ out1 w1 out2,
      writeGraphVertices palGraph 1 (doubled palGraph [1, 2, 0, 3, 4]) "" DotWriter.new =
        .ok (out1, w1) ∧
      Named w1 (palGraph.rc 0) ∧
      writeGraphEdges palGraph w1 (doubled palGraph [1, 2, 0, 3, 4]) out1 = .ok out2 := by
  have hrun : writeGraphVertices palGraph 1 (doubled palGraph [1, 2, 0, 3, 4]) ""
      DotWriter.new =
      .ok ("\"0+\" [l=5]\n\"0-\" [l=5]\n\"1+\" [l=5]\n\"1-\" [l=5]\n" ++
        "\"2+\" [l=5]\n\"2-\" [l=5]\n", named (named (named DotWriter.new 1 2) 0 0) 3 4) := by
    rfl
  obtain ⟨h1, out2, h2⟩ := edge_lookups_succeed palGraph palGraph_wellFormed
    palGraph_rcSymmetric palGraph_strictTotal (by decide) (by decide) 1 [1, 2, 0, 3, 4]
    (by decide) "" _ _ hrun
  exact ⟨⟨by decide, by decide⟩, _, _, out2, hrun, (h1 0 (by decide) (by decide)).1, h2⟩

/-! ## Reverse-complement symmetry of the Bloom-filter graph -/

theorem complement_complement (b : Base) : b.complement.complement = b := by
  cases b <;> rfl

theorem reverseComplement_involutive (u : Kmer) :
    reverseComplement (reverseComplement u) = u := by
  unfold reverseComplement
  rw [List.map_reverse, List.reverse_reverse, List.map_map]
  have : Base.complement ∘ Base.complement = id := by
    funext b
    exact complement_complement b
  rw [this, List.map_id]

theorem reverseComplement_predecessor (u : Kmer) (b : Base) :
    reverseComplement (RollingBloomDBG.predecessor u b) =
      RollingBloomDBG.successor (reverseComplement u) b.complement := by
  rcases List.eq_nil_or_concat u with rfl | ⟨l, c, rfl⟩
  · rfl
  · simp [RollingBloomDBG.predecessor, RollingBloomDBG.successor, reverseComplement]

theorem countP_complement (f : Base → Bool) :
    bases.countP (fun b => f b.complement) = bases.countP f := by
  simp only [bases, List.countP_cons, List.countP_nil, Base.complement]
  omega

theorem canonicalHash_rc (v : Kmer) : canonicalHash (reverseComplement v) = canonicalHash v := by
  unfold canonicalHash
  rw [reverseComplement_involutive, Nat.min_comm]

/-- C11 (reverse-complement symmetry of the Bloom-backed graph).  When membership is tested
on a strand-canonical hash, so that a k-mer and its reverse complement are present together,
then for every filter state and every k-mer vertex `u`, non-palindromic or not,
`in_degree(u)` equals `out_degree(reverseComplement(u))` in the same graph. -/
theorem bloom_rc_symmetry (g : RollingBloomDBG)
    (hcanon : ∀ v, g.hash (reverseComplement v) = g.hash v) (u : Kmer) :
    g.in_degree u = g.out_degree (reverseComplement u) := by
  unfold RollingBloomDBG.in_degree RollingBloomDBG.out_degree
  rw [← countP_complement (fun b =>
    g.vertexExists (RollingBloomDBG.successor (reverseComplement u) b))]
  congr 1
  funext b
  rw [← reverseComplement_predecessor]
  simp only [RollingBloomDBG.vertexExists, hcanon]

/-- Witness for C11 on the fixture: GACTC is not a palindrome, and its in-degree 2 is the
out-degree of GAGTC. -/
theorem bloom_rc_symmetry_witness :
    ((∀ v, testGraph.hash (reverseComplement v) = testGraph.hash v) ∧
      reverseComplement GACTC ≠ GACTC) ∧
    testGraph.in_degree GACTC = testGraph.out_degree (reverseComplement GACTC) ∧
    testGraph.out_degree (reverseComplement GACTC) = 2 :=
  ⟨⟨canonicalHash_rc, by decide⟩, bloom_rc_symmetry testGraph canonicalHash_rc GACTC,
    by decide⟩

/-! ## Spaced seeds keep the number of neighbours -/

/-- C12 (spaced-seed masking keeps neighbour cardinality).  For every filter state, mask and
vertex `u`, `out_degree(u)` and the number of edges enumerated by `out_edges(u)` are the same
with the mask set as with no mask, since the Bloom lookups use the unmasked hash; the mask
changes the equality of vertices only.  In the fixture with the mask `11011`,
`out_degree(GACTC) = 2` with the targets ACTCG and ACTCT, which stay distinct under the mask,
although GACTC is equal under the mask to its reverse complement GAGTC. -/
theorem spaced_seed_cardinality :
    (∀ (g : RollingBloomDBG) (mask : String) (u : Kmer),
      MaskedDBG.out_degree ⟨g, some mask⟩ u = MaskedDBG.out_degree ⟨g, none⟩ u ∧
      MaskedDBG.out_degree ⟨g, some mask⟩ u = g.out_degree u ∧
      (MaskedDBG.out_edges ⟨g, some mask⟩ u).length =
        (MaskedDBG.out_edges ⟨g, none⟩ u).length ∧
      (MaskedDBG.out_edges ⟨g, some mask⟩ u).length = MaskedDBG.out_degree ⟨g, some mask⟩ u) ∧
    MaskedDBG.out_degree ⟨testGraph, some "11011"⟩ GACTC = 2 ∧
    (MaskedDBG.out_edges ⟨testGraph, some "11011"⟩ GACTC).map RollingBloomDBG.target =
      [ACTCG, ACTCT] ∧
    MaskedDBG.vertexEq ⟨testGraph, some "11011"⟩ ACTCG ACTCT = false ∧
    reverseComplement GACTC = GAGTC ∧
    MaskedDBG.isPalindrome ⟨testGraph, some "11011"⟩ GACTC = true ∧
    MaskedDBG.isPalindrome ⟨testGraph, none⟩ GACTC = false := by
  refine ⟨?_, by decide, by decide, by decide, by decide, by decide, by decide⟩
  intro g mask u
  refine ⟨rfl, rfl, rfl, ?_⟩
  unfold MaskedDBG.out_edges MaskedDBG.out_degree
  rw [List.length_map, ← List.countP_eq_length_filter, List.countP_map]
  rfl

end Abyss
